import Mathlib

/-!
# Verification of the ClassCentral crawler core

Shallow embedding of `src/classcentral_crawler` (crawler.py, config.py,
models.py) together with the parts of Python's `urllib.parse` that the
crawler calls (`urljoin`, `urlsplit`, query splitting).  Machine states
(browser, HTTP client) are abstracted into explicit inputs: a listing page
becomes the set of detail links it yields, a fetch attempt becomes its
outcome, the JSON payload becomes an inductive tree.

URLs are modelled as `List Char` (wrapped into `String` at the boundary),
so that the character-level operations of `urllib.parse` (`split("?")`,
scheme/netloc/fragment splitting, path segment resolution) are executable
and provable.
-/

namespace Crawler

abbrev Chars := List Char

/-- `v.split("?")[0]`: the prefix of a URL before the first `?`
(crawler.py, `_course_links_from_html` and `_extract_course_links_from_json`). -/
def stripQuery (s : Chars) : Chars := s.takeWhile (fun c => c ≠ '?')

/-- Characters that may appear in a URL scheme (`urllib.parse.scheme_chars`). -/
def schemeChar (c : Char) : Bool := c.isAlpha || c.isDigit || c = '+' || c = '-' || c = '.'

/-- The scheme-splitting step of `urllib.parse.urlsplit`: if the text before the
first `:` is a nonempty valid scheme, return it lowercased together with the
remainder, else `none`. -/
def schemePre (url : Chars) : Chars := url.takeWhile (fun c => c ≠ ':')

def splitScheme (url : Chars) : Option (Chars × Chars) :=
  if (schemePre url).length < url.length ∧ schemePre url ≠ [] ∧
      ((schemePre url).headD ' ').isAlpha ∧ (schemePre url).all schemeChar
  then some ((schemePre url).map Char.toLower, url.drop ((schemePre url).length + 1))
  else none

/-- Characters ending the netloc part of a URL (`urllib.parse._splitnetloc`). -/
def netlocEnd (c : Char) : Bool := c = '/' || c = '?' || c = '#'

/-- The netloc-splitting step of `urllib.parse.urlsplit`: if the remainder starts
with `//`, the netloc runs to the first of `/?#`. -/
def splitNetloc (url : Chars) : Chars × Chars :=
  match url with
  | '/' :: '/' :: rest =>
    (rest.takeWhile (fun c => !netlocEnd c), rest.dropWhile (fun c => !netlocEnd c))
  | _ => ([], url)

/-- `s.split(stop, 1)`: the part before the first `stop` character together with
the part from the first `stop` character on (including it, empty if absent). -/
def breakOn (stop : Char) (s : Chars) : Chars × Chars :=
  (s.takeWhile (fun c => c ≠ stop), s.dropWhile (fun c => c ≠ stop))

/-- The five components of `urllib.parse.urlsplit`.  The `params` component of
`urlparse` is re-derived from `path` by `parseParams` where `urljoin` needs it,
matching CPython's `urlparse`/`urlunparse` round trip. -/
structure UrlParts where
  scheme : Chars
  netloc : Chars
  path : Chars
  query : Chars
  frag : Chars
deriving DecidableEq, Repr

/-- The scheme component of `urlsplit`: the lowercased prefix when a valid
scheme is present, the default otherwise. -/
def schemeOf (url d : Chars) : Chars :=
  match splitScheme url with
  | some sr => sr.1
  | none => d

/-- The remainder of the input after `urlsplit`'s scheme step. -/
def schemeRest (url : Chars) : Chars :=
  match splitScheme url with
  | some sr => sr.2
  | none => url

/-- `urllib.parse.urlsplit(url, defaultScheme)`: split a URL into scheme,
netloc, path, query and fragment; a URL without a scheme receives
`defaultScheme`.  Fragment is split off (at the first `#`) before the query
(at the first `?`), as in CPython. -/
def urlsplit (url : Chars) (defaultScheme : Chars) : UrlParts :=
  ⟨schemeOf url defaultScheme,
   (splitNetloc (schemeRest url)).1,
   (breakOn '?' (breakOn '#' (splitNetloc (schemeRest url)).2).1).1,
   (breakOn '?' (breakOn '#' (splitNetloc (schemeRest url)).2).1).2.tail,
   (breakOn '#' (splitNetloc (schemeRest url)).2).2.tail⟩

/-- `if url and url[:1] != '/': url = '/' + url` inside `urlunsplit`. -/
def slashPath (path : Chars) : Chars :=
  if path ≠ [] ∧ path.headD ' ' ≠ '/' then '/' :: path else path

/-- The netloc/path portion assembled by `urlunsplit`. -/
def unsplitPath (netloc path : Chars) : Chars :=
  if netloc ≠ [] ∨ path.take 2 = ['/', '/'] then
    '/' :: '/' :: (netloc ++ slashPath path)
  else path

/-- `urllib.parse.urlunsplit`: reassemble a URL from its components. -/
def urlunsplit (p : UrlParts) : Chars :=
  (if p.scheme ≠ [] then p.scheme ++ ':' :: unsplitPath p.netloc p.path
   else unsplitPath p.netloc p.path) ++
  (if p.query ≠ [] then '?' :: p.query else []) ++
  (if p.frag ≠ [] then '#' :: p.frag else [])

/-- `urllib.parse.uses_relative`: schemes allowing relative resolution. -/
def usesRelative : List Chars :=
  (["", "ftp", "http", "gopher", "nntp", "imap", "wais", "file", "https", "shttp",
    "mms", "prospero", "rtsp", "rtspu", "sftp", "svn", "svn+ssh", "ws", "wss"].map String.data)

/-- `urllib.parse.uses_netloc`: schemes with a network location part. -/
def usesNetloc : List Chars :=
  (["", "ftp", "http", "gopher", "nntp", "telnet", "imap", "wais", "file", "mms",
    "https", "shttp", "snews", "prospero", "rtsp", "rtspu", "rsync", "svn",
    "svn+ssh", "sftp", "nfs", "git", "git+ssh", "ws", "wss", "itms-services"].map String.data)

/-- `urllib.parse.uses_params`: schemes whose path may carry `;params`. -/
def usesParams : List Chars :=
  (["", "ftp", "hdl", "prospero", "http", "imap", "https", "shttp", "rtsp",
    "rtspu", "sip", "sips", "mms", "sftp", "tel"].map String.data)

/-- The part of a path after its last `/` (the whole path when it has none). -/
def lastSeg (x : Chars) : Chars := (x.reverse.takeWhile (fun c => c ≠ '/')).reverse

/-- The part of a path up to and including its last `/` (empty when it has none). -/
def initPart (x : Chars) : Chars := (x.reverse.dropWhile (fun c => c ≠ '/')).reverse

/-- `urllib.parse._splitparams`: split `;params` off at the first `;` of the
last path segment (searching the whole string when there is no `/`). -/
def splitParams (x : Chars) : Chars × Chars :=
  if (breakOn ';' (lastSeg x)).2 = [] then (x, [])
  else (initPart x ++ (breakOn ';' (lastSeg x)).1, (breakOn ';' (lastSeg x)).2.tail)

/-- The params step of `urllib.parse.urlparse`: split only for schemes in
`uses_params` and only when the path contains a `;`. -/
def parseParams (scheme path : Chars) : Chars × Chars :=
  if scheme ∈ usesParams ∧ ';' ∈ path then splitParams path else (path, [])

/-- The params step of `urllib.parse.urlunparse`: re-attach a nonempty params
component to the path with a `;`. -/
def reattachParams (pp : Chars × Chars) : Chars :=
  if pp.2 ≠ [] then pp.1 ++ ';' :: pp.2 else pp.1

/-- Python `str.split(sep)` for a single character separator: always nonempty,
empty string splits to `[""]`. -/
def splitOnChar (sep : Char) : Chars → List Chars
  | [] => [[]]
  | c :: rest =>
    if c = sep then [] :: splitOnChar sep rest
    else (c :: (splitOnChar sep rest).headD []) :: (splitOnChar sep rest).tail

/-- `urljoin`'s base path segments: `base_parts = bpath.split('/')`, with the
last element deleted when it is not empty (not a directory). -/
def basePartsOf (bpath : Chars) : List Chars :=
  if (splitOnChar '/' bpath).getLastD [] ≠ [] then (splitOnChar '/' bpath).dropLast
  else splitOnChar '/' bpath

/-- `segments[1:-1] = filter(None, segments[1:-1])` in `urljoin`: drop empty
segments strictly between the first and the last. -/
def filterMiddle (l : List Chars) : List Chars :=
  match l with
  | [] => []
  | [a] => [a]
  | a :: rest => a :: (rest.dropLast.filter (fun s => s ≠ []) ++ [rest.getLastD []])

/-- The `.`/`..` resolution loop of `urljoin`: `..` pops (ignoring underflow),
`.` is skipped, other segments are appended. -/
def resolveSegs (segs : List Chars) : List Chars :=
  segs.foldl (fun acc seg =>
    if seg = ['.', '.'] then acc.dropLast
    else if seg = ['.'] then acc
    else acc ++ [seg]) []

/-- The segment list `urljoin` resolves: the url path's own segments when it is
absolute, else the base segments followed by the url segments with empty
middle entries dropped. -/
def joinSegments (bpath upath : Chars) : List Chars :=
  if upath.headD ' ' = '/' then splitOnChar '/' upath
  else filterMiddle (basePartsOf bpath ++ splitOnChar '/' upath)

/-- The resolved segments, with the trailing empty segment appended when the
last input segment was `.` or `..`. -/
def resolvedOf (segs : List Chars) : List Chars :=
  if segs.getLastD [] = ['.'] ∨ segs.getLastD [] = ['.', '.']
  then resolveSegs segs ++ [[]] else resolveSegs segs

/-- Python `sep.join(parts)`. -/
def joinWith (sep : Chars) : List Chars → Chars
  | [] => []
  | [a] => a
  | a :: rest => a ++ sep ++ joinWith sep rest

/-- `'/'.join(resolved_path) or '/'`. -/
def joinedPathOf (segs : List Chars) : Chars :=
  if joinWith ['/'] (resolvedOf segs) = [] then ['/']
  else joinWith ['/'] (resolvedOf segs)

/-- The core of `urllib.parse.urljoin` after both URLs are split:
`b` is the split base, `u` the split url (parsed with the base's scheme as
default), `url` the unsplit url for the early-return branch. -/
def joinResolve (b u : UrlParts) (url : Chars) : Chars :=
  if u.scheme ≠ b.scheme ∨ u.scheme ∉ usesRelative then url
  else if u.scheme ∈ usesNetloc ∧ u.netloc ≠ [] then
    urlunsplit ⟨u.scheme, u.netloc,
      reattachParams (parseParams u.scheme u.path), u.query, u.frag⟩
  else if (parseParams u.scheme u.path).1 = [] ∧ (parseParams u.scheme u.path).2 = [] then
    urlunsplit ⟨u.scheme, (if u.scheme ∈ usesNetloc then b.netloc else u.netloc),
      reattachParams (parseParams b.scheme b.path),
      (if u.query = [] then b.query else u.query), u.frag⟩
  else
    urlunsplit ⟨u.scheme, (if u.scheme ∈ usesNetloc then b.netloc else u.netloc),
      reattachParams
        (joinedPathOf (joinSegments (parseParams b.scheme b.path).1
            (parseParams u.scheme u.path).1),
         (parseParams u.scheme u.path).2),
      u.query, u.frag⟩

/-- `urllib.parse.urljoin(base, url)`. -/
def urljoin (base url : Chars) : Chars :=
  if base = [] then url
  else if url = [] then base
  else joinResolve (urlsplit base []) (urlsplit url (urlsplit base []).scheme) url

/-- `CrawlConfig.base_url` default (config.py). -/
def baseUrl : String := "https://www.classcentral.com"

/-- The canonicalization the crawler applies to every detail link before set
insertion: strip the query string, then resolve against the base URL
(`urljoin(base_url, href.split("?")[0])` in `_course_links_from_html` and
`_extract_course_links_from_json`). -/
def canonChars (s : Chars) : Chars := urljoin baseUrl.data (stripQuery s)

/-- String-level canonicalization. -/
def canon (s : String) : String := ⟨canonChars s.data⟩

/-- Python `pat in s` substring test. -/
def strContains (s pat : String) : Bool :=
  s.data.tails.any (fun t => pat.data.isPrefixOf t)

/-! ## Configuration (config.py) -/

/-- `CrawlConfig` (config.py).  `output_dir` is a plain path string here. -/
structure CrawlConfig where
  base_url : String := "https://www.classcentral.com"
  listing_path : String := "/subject"
  output_dir : String := "output"
  max_listing_pages : Nat := 200
  headless : Bool := true
  concurrency : Nat := 5
  rate_limit_per_sec : Rat := 3 / 2
  max_retries : Nat := 4
  timeout_seconds : Nat := 35

/-- `CrawlConfig.listing_url` (config.py). -/
def CrawlConfig.listing_url (c : CrawlConfig) : String := c.base_url ++ c.listing_path

/-! ## Retrying fetcher (`ClassCentralCrawler._fetch`, crawler.py)

The `tenacity` decorator on `_fetch` is `retry(reraise=True,
wait=wait_exponential(...), stop=stop_after_attempt(4),
retry=retry_if_exception_type(httpx.HTTPError))`.  An attempt is
`client.get(url)` followed by `response.raise_for_status()`: it can raise an
`httpx.RequestError` (network-level failure) or an `httpx.HTTPStatusError`
(non-2xx status) — both subclasses of `httpx.HTTPError` — or return the
response.  Backoff timing is not modelled; only attempt outcomes are. -/

/-- An HTTP response: status code and body. -/
structure Response where
  status : Nat
  body : String
deriving DecidableEq, Repr

/-- The raw outcome of one `client.get` call: a response, or a network-level
failure (`httpx.RequestError`). -/
inductive AttemptResult where
  | resp (r : Response)
  | netErr
deriving DecidableEq, Repr

/-- The exceptions `_fetch`'s body can raise, all `httpx.HTTPError` subclasses:
`RequestError` from `client.get`, `HTTPStatusError` from `raise_for_status`. -/
inductive FetchError where
  | requestError
  | statusError (status : Nat)
deriving DecidableEq, Repr

/-- `httpx.Response.is_success`: a 2xx status. -/
def isSuccessStatus (s : Nat) : Bool := 200 ≤ s && s < 300

/-- One attempt of `_fetch`'s body: `client.get` then `raise_for_status`. -/
def attemptOutcome : AttemptResult → Except FetchError Response
  | .netErr => .error .requestError
  | .resp r => if isSuccessStatus r.status then .ok r else .error (.statusError r.status)

/-- `retry_if_exception_type(httpx.HTTPError)`: every exception `_fetch`'s body
raises is an `httpx.HTTPError`, hence retryable. -/
def isRetryableError : FetchError → Bool
  | .requestError => true
  | .statusError _ => true

/-- `stop_after_attempt(4)` in the decorator on `_fetch` (a literal, not
`config.max_retries`). -/
def stopAfterAttempt : Nat := 4

/-- The tenacity retry loop of `_fetch`: attempt `n` (1-based) with
`budget` further attempts allowed; returns the final outcome together with the
number of attempts performed.  `reraise=True`: on exhaustion the last
exception is raised. -/
def fetchRetryGo (attempt : Nat → AttemptResult) : Nat → Nat → Except FetchError Response × Nat
  | budget, n =>
    match attemptOutcome (attempt n) with
    | .ok r => (.ok r, 1)
    | .error e =>
      match budget with
      | 0 => (.error e, 1)
      | budget + 1 =>
        if isRetryableError e then
          ((fetchRetryGo attempt budget (n + 1)).1,
           (fetchRetryGo attempt budget (n + 1)).2 + 1)
        else (.error e, 1)

/-- `_fetch` under a given sequence of attempt outcomes: result and number of
attempts performed (at most `stop_after_attempt(4)`). -/
def fetchRetry (attempt : Nat → AttemptResult) : Except FetchError Response × Nat :=
  fetchRetryGo attempt (stopAfterAttempt - 1) 1

/-! ## Link extraction from HTML (`_course_links_from_html`, crawler.py)

The rendered document is abstracted to the list of `href` attribute values of
its anchors, in document order; the CSS selector `a[href*='/course/']` keeps
those containing `/course/`, `if not href: continue` drops empty ones, and
each survivor is canonicalized and inserted into a set. -/

def course_links_from_html (hrefs : List String) : Finset String :=
  hrefs.foldl (fun urls href =>
    if strContains href "/course/" ∧ href ≠ "" then insert (canon href) urls else urls) ∅

/-! ## JSON link extraction (`_extract_course_links_from_json`, crawler.py) -/

/-- A parsed JSON payload (`response.json()`): maps, sequences, strings and
scalar leaves. -/
inductive Json where
  | str (s : String)
  | num (n : Int)
  | boolJ (b : Bool)
  | null
  | arr (xs : List Json)
  | obj (kvs : List (String × Json))

/-- Python `str.lower`, for the slug-key comparison (ASCII). -/
def keyLower (s : String) : String := ⟨s.data.map Char.toLower⟩

/-- What one `(k, v)` map entry contributes directly in `walk`:
a canonicalized URL when `v` is a string containing `/course/`, and a
synthesized `/course/{v}` URL when `k.lower()` is a slug key and `v` a string. -/
def entryContrib (k : String) (v : Json) : Finset String :=
  (match v with
   | .str s => if strContains s "/course/" then {canon s} else (∅ : Finset String)
   | _ => ∅) ∪
  (match v with
   | .str s =>
     if keyLower k = "slug" ∨ keyLower k = "course_slug" then
       {⟨urljoin baseUrl.data ("/course/" ++ s).data⟩}
     else (∅ : Finset String)
   | _ => ∅)

mutual

/-- The recursive `walk` of `_extract_course_links_from_json`: dict entries
contribute directly and are walked; list items are walked; leaves contribute
nothing (a bare string reached as a list item or at the root is not examined). -/
def extractJson : Json → Finset String
  | .str _ => ∅
  | .num _ => ∅
  | .boolJ _ => ∅
  | .null => ∅
  | .arr xs => extractArr xs
  | .obj kvs => extractObj kvs

def extractArr : List Json → Finset String
  | [] => ∅
  | x :: rest => extractJson x ∪ extractArr rest

def extractObj : List (String × Json) → Finset String
  | [] => ∅
  | (k, v) :: rest => (entryContrib k v ∪ extractJson v) ∪ extractObj rest

end

/-! ## DOM pagination (`_collect_listing_urls_dom`, crawler.py, query phase)

The scroll/load-more phase and each `page.goto`/`page.content` are abstracted:
`pages p` is the canonicalized link set `_course_links_from_html` yields for
listing page `p`.  The query phase runs `for p in range(2, max_listing_pages+1)`,
breaking when a page has no links at all, or when it adds nothing new
(`len(urls) == before`) and `p > 5`. -/

/-- One step of the query-pagination loop, with `fuel` remaining iterations,
current page number `p` and accumulated set `urls`.  Returns the final set and
the number of page fetches performed. -/
def domWalkGo (pages : Nat → Finset String) : Nat → Nat → Finset String → Finset String × Nat
  | 0, _, urls => (urls, 0)
  | fuel + 1, p, urls =>
    if pages p = ∅ then (urls, 1)
    else if ((urls ∪ pages p).card = urls.card) ∧ 5 < p then (urls ∪ pages p, 1)
    else ((domWalkGo pages fuel (p + 1) (urls ∪ pages p)).1,
          (domWalkGo pages fuel (p + 1) (urls ∪ pages p)).2 + 1)

/-- The query-pagination phase: pages `2 .. max_listing_pages`, starting from
the links `init` found by the scroll phase. -/
def domPaginate (pages : Nat → Finset String) (maxListingPages : Nat)
    (init : Finset String) : Finset String × Nat :=
  domWalkGo pages (maxListingPages - 1) 2 init

/-! ## API pagination (`_collect_listing_urls_api`, crawler.py) -/

/-- The outcome of one API page: the fetch raised (after its internal retries),
the body was not JSON, or a set of extracted links. -/
inductive ApiPage where
  | fetchFail
  | decodeFail
  | ok (links : Finset String)
deriving DecidableEq

/-- The per-endpoint loop `for page in range(1, max_listing_pages+1)`:
break on fetch failure, JSON decode failure, or an empty extracted link set;
otherwise accumulate and continue.  Returns the collected links and the number
of page fetches performed. -/
def apiWalkGo (pages : Nat → ApiPage) : Nat → Nat → Finset String → Finset String × Nat
  | 0, _, urls => (urls, 0)
  | fuel + 1, p, urls =>
    match pages p with
    | .fetchFail => (urls, 1)
    | .decodeFail => (urls, 1)
    | .ok links =>
      if links = ∅ then (urls, 1)
      else ((apiWalkGo pages fuel (p + 1) (urls ∪ links)).1,
            (apiWalkGo pages fuel (p + 1) (urls ∪ links)).2 + 1)

/-- One endpoint's walk: pages `1 .. max_listing_pages`, starting empty. -/
def apiWalkEndpoint (pages : Nat → ApiPage) (maxListingPages : Nat) :
    Finset String × Nat :=
  apiWalkGo pages maxListingPages 1 ∅

/-- `if "page" not in query: query["page"] = ["1"]` — the query normalization
before the loop (parse_qs order preserved as an association list). -/
def ensurePageParam (q : List (String × String)) : List (String × String) :=
  if q.any (fun kv => kv.1 = "page") then q else q ++ [("page", "1")]

/-- The sequence of values assigned to the `page` parameter by
`for page in range(1, max_listing_pages+1): query["page"] = [str(page)]` —
the loop starts at 1 and overwrites whatever value the endpoint carried. -/
def apiPageCursor (maxListingPages : Nat) : List Nat :=
  List.range' 1 maxListingPages

/-! ## URL reconciliation (`collect_course_urls`, crawler.py) -/

/-- `urls = dom_urls; urls.update(api_urls)`: plain set union. -/
def collect_course_urls (domUrls apiUrls : Finset String) : Finset String :=
  domUrls ∪ apiUrls

/-! ## Course records and the concurrent detail fetcher
(models.py `CourseRecord`; crawler.py `_scrape_single_course`,
`scrape_courses`, `run`) -/

/-- `CourseRecord` (models.py).  `rating` is kept as an integer-scaled pair
field-for-field fidelity is not load-bearing for the claims, which only touch
`url`; numeric fields are `Option Int`/`Option Rat`. -/
structure CourseRecord where
  url : String
  title : Option String := none
  provider_platform : Option String := none
  university : Option String := none
  instructors : List String := []
  description : Option String := none
  rating : Option Rat := none
  review_count : Option Int := none
  language : Option String := none
  level : Option String := none
  duration : Option String := none
  price : Option String := none
  certificate_availability : Option String := none
  enrollment_link : Option String := none
  image_url : Option String := none
deriving DecidableEq, Repr

/-- `scrape_courses`: `asyncio.gather` preserves input positions, each task
yields `_scrape_single_course`'s result — a record, or `None` when the fetch
exhausted its retries or the extractor raised (`except Exception: return
None`) — and `[r for r in results if r]` keeps the successes in order.
`outcome` abstracts the per-URL fetch-and-parse. -/
def scrape_courses (outcome : String → Option CourseRecord)
    (urls : List String) : List CourseRecord :=
  urls.filterMap outcome

/-- `run`: collect URLs, then `scrape_courses(sorted(urls))`. -/
def runCrawl (outcome : String → Option CourseRecord)
    (urls : Finset String) : List CourseRecord :=
  scrape_courses outcome (urls.sort (· ≤ ·))

/-! ## Helper lemmas: `takeWhile`/`dropWhile` over appends -/

lemma takeWhile_append_all {p : Char → Bool} {n t : Chars}
    (hn : ∀ c ∈ n, p c = true) (ht : t = [] ∨ p (t.headD ' ') = false) :
    (n ++ t).takeWhile p = n := by
  induction n with
  | nil =>
    rcases ht with h | h
    · simp [h]
    · cases t with
      | nil => simp
      | cons c cs =>
        simp only [List.headD_cons] at h
        simp [List.takeWhile_cons, h]
  | cons c cs ih =>
    have hc : p c = true := hn c (by simp)
    simp only [List.cons_append, List.takeWhile_cons, hc, if_true]
    exact congrArg (c :: ·) (ih (fun x hx => hn x (by simp [hx])))

lemma dropWhile_append_all {p : Char → Bool} {n t : Chars}
    (hn : ∀ c ∈ n, p c = true) (ht : t = [] ∨ p (t.headD ' ') = false) :
    (n ++ t).dropWhile p = t := by
  induction n with
  | nil =>
    rcases ht with h | h
    · simp [h]
    · cases t with
      | nil => simp
      | cons c cs =>
        simp only [List.nil_append, List.dropWhile_cons]
        simp at h
        simp [h]
  | cons c cs ih =>
    have hc : p c = true := hn c (by simp)
    simp only [List.cons_append, List.dropWhile_cons, hc, if_true]
    exact ih (fun x hx => hn x (by simp [hx]))

/-! ## Helper lemmas: `stripQuery` -/

lemma stripQuery_no_questionmark (s : Chars) : '?' ∉ stripQuery s := by
  intro h
  have := List.mem_takeWhile_imp h
  simp at this

lemma stripQuery_eq_self {s : Chars} (h : '?' ∉ s) : stripQuery s = s := by
  apply List.takeWhile_eq_self_iff.mpr
  intro c hc
  simp only [decide_eq_true_eq]
  rintro rfl
  exact h hc

lemma stripQuery_append {pfx q : Chars} (h : '?' ∉ pfx) :
    stripQuery (pfx ++ '?' :: q) = pfx := by
  apply takeWhile_append_all
  · intro c hc
    simp only [decide_eq_true_eq]
    rintro rfl
    exact h hc
  · right; simp

/-! ## Helper lemmas: `urlsplit` components -/

lemma splitNetloc_fst_sublist (u : Chars) : (splitNetloc u).1.Sublist u := by
  unfold splitNetloc
  split
  · exact (List.takeWhile_sublist _).trans
      ((List.sublist_cons_self _ _).trans (List.sublist_cons_self _ _))
  · simp

lemma splitNetloc_snd_sublist (u : Chars) : (splitNetloc u).2.Sublist u := by
  unfold splitNetloc
  split
  · exact (List.dropWhile_sublist _).trans
      ((List.sublist_cons_self _ _).trans (List.sublist_cons_self _ _))
  · simp

lemma splitNetloc_fst_clean (u : Chars) : ∀ c ∈ (splitNetloc u).1, netlocEnd c = false := by
  unfold splitNetloc
  split
  · intro c hc
    have := List.mem_takeWhile_imp hc
    simpa using this
  · simp

lemma schemeRest_sublist (url : Chars) : (schemeRest url).Sublist url := by
  unfold schemeRest
  rcases h : splitScheme url with _ | ⟨s, rest⟩
  · simp
  · show rest.Sublist url
    simp only [splitScheme] at h
    split at h
    · simp only [Option.some.injEq, Prod.mk.injEq] at h
      rw [← h.2]
      exact List.drop_sublist _ _
    · exact absurd h (by simp)

lemma urlsplit_netloc_clean (url d : Chars) :
    ∀ c ∈ (urlsplit url d).netloc, netlocEnd c = false :=
  splitNetloc_fst_clean _

lemma urlsplit_netloc_sublist (url d : Chars) :
    (urlsplit url d).netloc.Sublist url :=
  (splitNetloc_fst_sublist _).trans (schemeRest_sublist url)

lemma urlsplit_path_sublist (url d : Chars) :
    (urlsplit url d).path.Sublist url :=
  (((List.takeWhile_sublist _).trans (List.takeWhile_sublist _)).trans
    (splitNetloc_snd_sublist _)).trans (schemeRest_sublist url)

lemma urlsplit_frag_sublist (url d : Chars) :
    (urlsplit url d).frag.Sublist url :=
  (((List.tail_sublist _).trans (List.dropWhile_sublist _)).trans
    (splitNetloc_snd_sublist _)).trans (schemeRest_sublist url)

lemma urlsplit_path_no_questionmark (url d : Chars) : '?' ∉ (urlsplit url d).path := by
  intro h
  have := List.mem_takeWhile_imp h
  simp at this

lemma urlsplit_path_no_hash (url d : Chars) : '#' ∉ (urlsplit url d).path := by
  intro h
  have := List.mem_takeWhile_imp ((List.takeWhile_sublist _).mem h)
  simp at this

lemma urlsplit_query_eq_nil {url : Chars} (d : Chars) (h : '?' ∉ url) :
    (urlsplit url d).query = [] := by
  show (breakOn '?' (breakOn '#' (splitNetloc (schemeRest url)).2).1).2.tail = []
  have hsub : (breakOn '#' (splitNetloc (schemeRest url)).2).1.Sublist url :=
    ((List.takeWhile_sublist _).trans (splitNetloc_snd_sublist _)).trans
      (schemeRest_sublist url)
  have hdw : (breakOn '?' (breakOn '#' (splitNetloc (schemeRest url)).2).1).2 = [] := by
    apply List.dropWhile_eq_nil_iff.mpr
    intro c hc
    simp only [decide_eq_true_eq]
    rintro rfl
    exact h (hsub.mem hc)
  rw [hdw]
  rfl

lemma dropWhile_head_prop {p : Char → Bool} {l : Chars} :
    l.dropWhile p = [] ∨ p ((l.dropWhile p).headD ' ') = false := by
  induction l with
  | nil => left; rfl
  | cons c cs ih =>
    rw [List.dropWhile_cons]
    by_cases h : p c = true
    · simp only [h, if_true]
      exact ih
    · have h' : p c = false := by
        cases hpc : p c
        · rfl
        · exact absurd hpc h
      simp [h']

/-- When the netloc came out nonempty, the `//` branch was taken, so the
remainder after the netloc is empty or starts with a netloc-ending character. -/
lemma splitNetloc_snd_shape {v : Chars} (hn : (splitNetloc v).1 ≠ []) :
    (splitNetloc v).2 = [] ∨ netlocEnd ((splitNetloc v).2.headD ' ') = true := by
  unfold splitNetloc at hn ⊢
  revert hn
  split
  · intro _
    rcases @dropWhile_head_prop (fun c => !netlocEnd c) (by exact ‹List Char›)
      with h | h
    · exact Or.inl h
    · exact Or.inr (by simpa using h)
  · intro hn
    exact absurd rfl hn

/-- With a nonempty netloc and no `?` in the input, the path is empty or starts
with `/`. -/
lemma urlsplit_path_shape {url : Chars} (d : Chars) (hq : '?' ∉ url)
    (hn : (urlsplit url d).netloc ≠ []) :
    (urlsplit url d).path = [] ∨ (urlsplit url d).path.headD ' ' = '/' := by
  replace hn : (splitNetloc (schemeRest url)).1 ≠ [] := hn
  show (breakOn '?' (breakOn '#' (splitNetloc (schemeRest url)).2).1).1 = [] ∨
    (breakOn '?' (breakOn '#' (splitNetloc (schemeRest url)).2).1).1.headD ' ' = '/'
  rcases splitNetloc_snd_shape hn with hrest | hrest
  · left; simp [breakOn, hrest]
  · rcases hr : (splitNetloc (schemeRest url)).2 with _ | ⟨c, cs⟩
    · left; simp [breakOn, hr]
    · rw [hr] at hrest
      simp only [List.headD_cons] at hrest
      have hc : c = '/' ∨ c = '?' ∨ c = '#' := by
        revert hrest; unfold netlocEnd
        simp only [Bool.or_eq_true, decide_eq_true_eq]
        tauto
      rcases hc with rfl | rfl | rfl
      · right
        simp [breakOn, hr, List.takeWhile_cons]
      · exfalso
        apply hq
        refine ((splitNetloc_snd_sublist _).trans (schemeRest_sublist url)).mem ?_
        rw [hr]; simp
      · left
        simp [breakOn, hr, List.takeWhile_cons]

/-! ## Helper lemmas: `lastSeg`, `initPart` and params stability -/

lemma takeWhile_append_of_all {p : Char → Bool} {n t : Chars}
    (hn : ∀ c ∈ n, p c = true) : (n ++ t).takeWhile p = n ++ t.takeWhile p := by
  induction n with
  | nil => simp
  | cons c cs ih =>
    have hc : p c = true := hn c (by simp)
    simp only [List.cons_append, List.takeWhile_cons, hc, if_true]
    exact congrArg (c :: ·) (ih (fun x hx => hn x (by simp [hx])))

lemma dropWhile_append_of_all {p : Char → Bool} {n t : Chars}
    (hn : ∀ c ∈ n, p c = true) : (n ++ t).dropWhile p = t.dropWhile p := by
  induction n with
  | nil => simp
  | cons c cs ih =>
    have hc : p c = true := hn c (by simp)
    simp only [List.cons_append, List.dropWhile_cons, hc, if_true]
    exact ih (fun x hx => hn x (by simp [hx]))

lemma initPart_append_lastSeg (x : Chars) : initPart x ++ lastSeg x = x := by
  unfold initPart lastSeg
  rw [← List.reverse_append, List.takeWhile_append_dropWhile, List.reverse_reverse]

lemma lastSeg_no_slash (x : Chars) : '/' ∉ lastSeg x := by
  unfold lastSeg
  intro h
  rw [List.mem_reverse] at h
  have := List.mem_takeWhile_imp h
  simp at this

lemma initPart_shape (x : Chars) : initPart x = [] ∨ (initPart x).getLast? = some '/' := by
  unfold initPart
  rcases hd : x.reverse.dropWhile (fun c => decide (c ≠ '/')) with _ | ⟨c, cs⟩
  · left; rfl
  · right
    have h := @dropWhile_head_prop (fun c => decide (c ≠ '/')) x.reverse
    rw [hd] at h
    rcases h with h | h
    · exact absurd h (by simp)
    · have hc : c = '/' := by simpa using h
      subst hc
      simp

lemma headD_append_left {a b : Chars} (d : Char) (ha : a ≠ []) :
    (a ++ b).headD d = a.headD d := by
  cases a with
  | nil => exact absurd rfl ha
  | cons c cs => simp

lemma lastSeg_append_right {a b : Chars} (hb : '/' ∉ b) :
    lastSeg (a ++ b) = lastSeg a ++ b := by
  unfold lastSeg
  rw [List.reverse_append]
  rw [takeWhile_append_of_all (fun c hc => by
    simp only [decide_eq_true_eq]
    rintro rfl
    exact hb (List.mem_reverse.mp hc))]
  rw [List.reverse_append, List.reverse_reverse]

lemma initPart_append_right {a b : Chars} (hb : '/' ∉ b) :
    initPart (a ++ b) = initPart a := by
  unfold initPart
  rw [List.reverse_append]
  rw [dropWhile_append_of_all (fun c hc => by
    simp only [decide_eq_true_eq]
    rintro rfl
    exact hb (List.mem_reverse.mp hc))]

lemma lastSeg_append_free {i s : Chars} (hi : i = [] ∨ i.getLast? = some '/')
    (hs : '/' ∉ s) : lastSeg (i ++ s) = s := by
  have hstop : i.reverse = [] ∨
      (fun c => decide (c ≠ '/')) (i.reverse.headD ' ') = false := by
    rcases hi with rfl | hlast
    · left; simp
    · right
      have h2 : i.reverse.head? = some '/' := by
        rw [List.head?_reverse]; exact hlast
      rcases hr : i.reverse with _ | ⟨c, cs⟩
      · rw [hr] at h2; simp at h2
      · rw [hr] at h2
        simp only [List.head?_cons, Option.some.injEq] at h2
        simp [h2]
  unfold lastSeg
  rw [List.reverse_append]
  rw [@takeWhile_append_all _ _ i.reverse
    (fun c hc => by
      simp only [decide_eq_true_eq]
      rintro rfl
      exact hs (List.mem_reverse.mp hc))
    hstop]
  rw [List.reverse_reverse]

lemma takeWhile_append_singleton_stop {p : Char → Bool} {l : Chars} {a : Char}
    (h : p a = false) : (l ++ [a]).takeWhile p = l.takeWhile p := by
  induction l with
  | nil => simp [List.takeWhile_cons, h]
  | cons c cs ih =>
    by_cases hc : p c = true
    · simp only [List.cons_append, List.takeWhile_cons, hc, if_true]
      exact congrArg (c :: ·) ih
    · have hc' : p c = false := by
        cases hpc : p c
        · rfl
        · exact absurd hpc hc
      simp [List.takeWhile_cons, hc']

lemma lastSeg_slash_cons (x : Chars) : lastSeg ('/' :: x) = lastSeg x := by
  unfold lastSeg
  have hrev : ('/' :: x).reverse = x.reverse ++ ['/'] := by simp
  rw [hrev, takeWhile_append_singleton_stop (by simp)]

lemma breakOn_fst_all {stop : Char} {l : Chars} (h : stop ∉ l) : (breakOn stop l).1 = l := by
  apply List.takeWhile_eq_self_iff.mpr
  intro c hc
  simp only [decide_eq_true_eq]
  rintro rfl
  exact h hc

lemma breakOn_snd_nil {stop : Char} {l : Chars} (h : stop ∉ l) : (breakOn stop l).2 = [] := by
  apply List.dropWhile_eq_nil_iff.mpr
  intro c hc
  simp only [decide_eq_true_eq]
  rintro rfl
  exact h hc

lemma breakOn_split {stop : Char} {A B : Chars} (hA : stop ∉ A) :
    breakOn stop (A ++ stop :: B) = (A, stop :: B) := by
  unfold breakOn
  have hall : ∀ c ∈ A, (fun c => decide (c ≠ stop)) c = true := fun c hc => by
    simp only [decide_eq_true_eq]
    rintro rfl
    exact hA hc
  have hstop : (stop :: B : Chars) = [] ∨
      (fun c => decide (c ≠ stop)) ((stop :: B : Chars).headD ' ') = false := by
    right; simp
  rw [takeWhile_append_all hall hstop, dropWhile_append_all hall hstop]

lemma splitParams_no {x : Chars} (h : ';' ∉ lastSeg x) : splitParams x = (x, []) := by
  unfold splitParams
  rw [breakOn_snd_nil h]
  simp

lemma splitParams_split {x A B : Chars} (hlast : lastSeg x = A ++ ';' :: B)
    (hA : ';' ∉ A) : splitParams x = (initPart x ++ A, B) := by
  unfold splitParams
  rw [hlast, breakOn_split hA]
  simp

/-- `P` is stable under the params split / re-attach round trip (with the
`https` scheme, the one the crawler's base URL fixes). -/
def PStable (P : Chars) : Prop := reattachParams (parseParams "https".data P) = P

lemma reattachParams_pair_nil (x : Chars) : reattachParams (x, []) = x := rfl

lemma pstable_of_lastSeg_free {P : Chars} (h : ';' ∉ lastSeg P) : PStable P := by
  unfold PStable parseParams
  split
  · rw [splitParams_no h]
    rfl
  · rfl

lemma pstable_append_params {A ps : Chars} (hA : ';' ∉ lastSeg A) (hps : ps ≠ [])
    (hslash : '/' ∉ ps) : PStable (A ++ ';' :: ps) := by
  have hsl : '/' ∉ (';' :: ps : Chars) := by
    simp only [List.mem_cons]
    rintro (h | h)
    · exact absurd h (by decide)
    · exact hslash h
  have hls : lastSeg (A ++ ';' :: ps) = lastSeg A ++ ';' :: ps := lastSeg_append_right hsl
  have hip : initPart (A ++ ';' :: ps) = initPart A := initPart_append_right hsl
  unfold PStable parseParams
  rw [if_pos ⟨by decide, by simp⟩]
  rw [splitParams_split hls hA, hip]
  unfold reattachParams
  rw [if_pos (by simpa using hps)]
  show (initPart A ++ lastSeg A) ++ ';' :: ps = A ++ ';' :: ps
  rw [initPart_append_lastSeg]

/-- The params split stabilizes after one round: re-attaching what `urlparse`
split off yields a path that splits the same way again. -/
lemma parseParams_stable (x : Chars) :
    PStable (reattachParams (parseParams "https".data x)) := by
  by_cases hcond : "https".data ∈ usesParams ∧ ';' ∈ x
  · have hpp : parseParams "https".data x = splitParams x := by
      unfold parseParams; rw [if_pos hcond]
    rcases hbo : (breakOn ';' (lastSeg x)).2 with _ | ⟨c, ps⟩
    · have hfree : ';' ∉ lastSeg x := by
        intro hmem
        have := List.dropWhile_eq_nil_iff.mp hbo _ hmem
        simp at this
      rw [hpp, splitParams_no hfree, reattachParams_pair_nil]
      exact pstable_of_lastSeg_free hfree
    · have hc : c = ';' := by
        have h := @dropWhile_head_prop (fun c => decide (c ≠ ';')) (lastSeg x)
        rcases h with h | h
        · rw [show List.dropWhile (fun c => decide (c ≠ ';')) (lastSeg x) =
              (breakOn ';' (lastSeg x)).2 from rfl, hbo] at h
          exact absurd h (by simp)
        · rw [show List.dropWhile (fun c => decide (c ≠ ';')) (lastSeg x) =
              (breakOn ';' (lastSeg x)).2 from rfl, hbo] at h
          simpa using h
      subst hc
      have hfree1 : ';' ∉ (breakOn ';' (lastSeg x)).1 := by
        intro hmem
        have := List.mem_takeWhile_imp hmem
        simp at this
      have hdecomp : lastSeg x = (breakOn ';' (lastSeg x)).1 ++ ';' :: ps := by
        conv_lhs => rw [← List.takeWhile_append_dropWhile
          (fun c => decide (c ≠ ';')) (lastSeg x)]
        rw [show List.dropWhile (fun c => decide (c ≠ ';')) (lastSeg x) =
            (breakOn ';' (lastSeg x)).2 from rfl, hbo]
        rfl
      have hslashfree : '/' ∉ (breakOn ';' (lastSeg x)).1 := by
        intro hmem
        exact lastSeg_no_slash x ((List.takeWhile_sublist _).mem hmem)
      have hlsp : lastSeg (initPart x ++ (breakOn ';' (lastSeg x)).1) =
          (breakOn ';' (lastSeg x)).1 :=
        lastSeg_append_free (initPart_shape x) hslashfree
      rw [hpp, splitParams_split hdecomp hfree1]
      rcases hps : ps with _ | ⟨d, ds⟩
      · rw [reattachParams_pair_nil]
        exact pstable_of_lastSeg_free (by rw [hlsp]; exact hfree1)
      · have hpsne : (d :: ds : Chars) ≠ [] := by simp
        have hpssl : '/' ∉ (d :: ds : Chars) := by
          intro hmem
          apply lastSeg_no_slash x
          rw [hdecomp, hps]
          simp [hmem]
        unfold reattachParams
        rw [if_pos (by simp)]
        exact pstable_append_params (by rw [hlsp]; exact hfree1) hpsne hpssl
  · unfold parseParams
    rw [if_neg hcond, reattachParams_pair_nil]
    unfold PStable parseParams
    rw [if_neg hcond, reattachParams_pair_nil]

/-! ## Helper lemmas: path segments -/

lemma takeWhile_append_stops {p : Char → Bool} {l : Chars} (t : Chars)
    (h : ∃ e ∈ l, p e = false) : (l ++ t).takeWhile p = l.takeWhile p := by
  induction l with
  | nil => simp at h
  | cons c cs ih =>
    by_cases hc : p c = true
    · simp only [List.cons_append, List.takeWhile_cons, hc, if_true]
      rcases h with ⟨e, he, hpe⟩
      rcases List.mem_cons.mp he with rfl | he
      · exact absurd hc (by simp [hpe])
      · exact congrArg (c :: ·) (ih ⟨e, he, hpe⟩)
    · have hc' : p c = false := by
        cases hpc : p c
        · rfl
        · exact absurd hpc hc
      simp [List.takeWhile_cons, hc']

lemma lastSeg_eq_self {x : Chars} (h : '/' ∉ x) : lastSeg x = x := by
  unfold lastSeg
  rw [List.takeWhile_eq_self_iff.mpr (fun c hc => by
    simp only [decide_eq_true_eq]
    rintro rfl
    exact h (List.mem_reverse.mp hc))]
  exact List.reverse_reverse x

lemma lastSeg_append_mem {W T : Chars} (h : '/' ∈ T) :
    lastSeg (W ++ T) = lastSeg T := by
  unfold lastSeg
  rw [List.reverse_append]
  rw [takeWhile_append_stops _ ⟨'/', List.mem_reverse.mpr h, by simp⟩]

lemma lastSeg_cons_mem {c : Char} {cs : Chars} (h : '/' ∈ cs) :
    lastSeg (c :: cs) = lastSeg cs := by
  have : (c :: cs : Chars) = [c] ++ cs := rfl
  rw [this, lastSeg_append_mem h]

lemma getLastD_irrel {l : List Chars} (h : l ≠ []) (d e : Chars) :
    l.getLastD d = l.getLastD e := by
  rw [List.getLastD_eq_getLast?, List.getLastD_eq_getLast?]
  rcases hl : l.getLast? with _ | a
  · exact absurd (List.getLast?_eq_none_iff.mp hl) h
  · rfl

lemma getLastD_append {l₁ l₂ : List Chars} (h : l₂ ≠ []) (d : Chars) :
    (l₁ ++ l₂).getLastD d = l₂.getLastD d := by
  induction l₁ with
  | nil => rfl
  | cons a as ih =>
    rw [List.cons_append, List.getLastD_cons, getLastD_irrel (by simp [h]) a d]
    exact ih

lemma splitOnChar_ne_nil (sep : Char) (x : Chars) : splitOnChar sep x ≠ [] := by
  cases x with
  | nil => simp [splitOnChar]
  | cons c cs =>
    unfold splitOnChar
    split <;> simp

lemma splitOnChar_elems_free (sep : Char) (x : Chars) :
    ∀ s ∈ splitOnChar sep x, sep ∉ s := by
  induction x with
  | nil =>
    intro s hs
    simp only [splitOnChar, List.mem_singleton] at hs
    subst hs
    simp
  | cons c cs ih =>
    intro s hs
    unfold splitOnChar at hs
    by_cases hc : c = sep
    · rw [if_pos hc] at hs
      rcases List.mem_cons.mp hs with rfl | hs
      · simp
      · exact ih s hs
    · rw [if_neg hc] at hs
      rcases List.mem_cons.mp hs with rfl | hs
      · intro hmem
        rcases List.mem_cons.mp hmem with heq | hmem
        · exact hc heq.symm
        · rcases hsp : splitOnChar sep cs with _ | ⟨h0, t0⟩
          · exact splitOnChar_ne_nil sep cs hsp
          · rw [hsp] at hmem
            simp only [List.headD_cons] at hmem
            exact ih h0 (by rw [hsp]; simp) hmem
      · exact ih s ((List.tail_sublist _).mem hs)

lemma splitOnChar_chars (sep : Char) (x : Chars) :
    ∀ s ∈ splitOnChar sep x, ∀ c ∈ s, c ∈ x := by
  induction x with
  | nil =>
    intro s hs
    simp only [splitOnChar, List.mem_singleton] at hs
    subst hs
    simp
  | cons a as ih =>
    intro s hs c hc
    unfold splitOnChar at hs
    by_cases ha : a = sep
    · rw [if_pos ha] at hs
      rcases List.mem_cons.mp hs with rfl | hs
      · simp at hc
      · exact List.mem_cons_of_mem _ (ih s hs c hc)
    · rw [if_neg ha] at hs
      rcases List.mem_cons.mp hs with rfl | hs
      · rcases List.mem_cons.mp hc with rfl | hc
        · simp
        · rcases hsp : splitOnChar sep as with _ | ⟨h0, t0⟩
          · exact absurd hsp (splitOnChar_ne_nil sep as)
          · rw [hsp] at hc
            simp only [List.headD_cons] at hc
            exact List.mem_cons_of_mem _ (ih h0 (by rw [hsp]; simp) c hc)
      · exact List.mem_cons_of_mem _ (ih s ((List.tail_sublist _).mem hs) c hc)

lemma splitOnChar_tail_nil_iff (sep : Char) (x : Chars) :
    (splitOnChar sep x).tail = [] ↔ sep ∉ x := by
  induction x with
  | nil => simp [splitOnChar]
  | cons c cs ih =>
    unfold splitOnChar
    by_cases hc : c = sep
    · rw [if_pos hc]
      simp only [List.tail_cons, List.mem_cons]
      constructor
      · intro h
        exact absurd h (splitOnChar_ne_nil sep cs)
      · intro h
        exact absurd (Or.inl hc.symm) h
    · rw [if_neg hc]
      simp only [List.tail_cons, List.mem_cons]
      rw [ih]
      constructor
      · intro h hmem
        rcases hmem with heq | hmem
        · exact hc heq.symm
        · exact h hmem
      · intro h hmem
        exact h (Or.inr hmem)

lemma splitOnChar_getLast (x : Chars) :
    (splitOnChar '/' x).getLastD [] = lastSeg x := by
  induction x with
  | nil => rfl
  | cons c cs ih =>
    unfold splitOnChar
    by_cases hc : c = '/'
    · rw [if_pos hc]
      subst hc
      rw [List.getLastD_cons, lastSeg_slash_cons]
      exact ih
    · rw [if_neg hc]
      rcases ht : (splitOnChar '/' cs).tail with _ | ⟨t0, ts⟩
      · have hnomem : '/' ∉ cs := (splitOnChar_tail_nil_iff '/' cs).mp ht
        rcases hsp : splitOnChar '/' cs with _ | ⟨h0, t1⟩
        · exact absurd hsp (splitOnChar_ne_nil '/' cs)
        · have ht1 : t1 = [] := by
            rw [hsp] at ht
            simpa using ht
          subst ht1
          have hih : h0 = lastSeg cs := by
            rw [hsp] at ih
            simpa using ih
          simp only [List.headD_cons]
          rw [@lastSeg_eq_self (c :: cs) (by
            simp only [List.mem_cons]
            rintro (heq | hmem)
            · exact hc heq.symm
            · exact hnomem hmem)]
          rw [hih, lastSeg_eq_self hnomem]
          simp
      · have hmem : '/' ∈ cs := by
          by_contra hnomem
          rw [(splitOnChar_tail_nil_iff '/' cs).mpr hnomem] at ht
          exact absurd ht.symm (by simp)
        rw [lastSeg_cons_mem hmem, ← ih]
        rcases hsp : splitOnChar '/' cs with _ | ⟨h0, t1⟩
        · exact absurd hsp (splitOnChar_ne_nil '/' cs)
        · have ht1 : t1 = t0 :: ts := by
            rw [hsp] at ht
            simpa using ht
          subst ht1
          simp only [List.headD_cons, List.getLastD_cons]

lemma filterMiddle_mem {l : List Chars} : ∀ s ∈ filterMiddle l, s ∈ l := by
  cases l with
  | nil => simp [filterMiddle]
  | cons a rest =>
    cases rest with
    | nil => simp [filterMiddle]
    | cons b t =>
      intro s hs
      rw [show filterMiddle (a :: b :: t) =
          a :: ((b :: t).dropLast.filter (fun s => s ≠ []) ++ [(b :: t).getLastD []])
          from rfl] at hs
      rcases List.mem_cons.mp hs with rfl | hs
      · simp
      · rcases List.mem_append.mp hs with hs | hs
        · exact List.mem_cons_of_mem _
            ((List.dropLast_sublist _).mem ((List.filter_sublist _).mem hs))
        · simp only [List.mem_singleton] at hs
          subst hs
          refine List.mem_cons_of_mem _ ?_
          have hne : (b :: t : List Chars) ≠ [] := by simp
          rw [List.getLastD_eq_getLast?, List.getLast?_eq_getLast _ hne]
          exact List.getLast_mem hne

lemma filterMiddle_ne_nil {l : List Chars} (h : l ≠ []) : filterMiddle l ≠ [] := by
  cases l with
  | nil => exact absurd rfl h
  | cons a rest =>
    cases rest with
    | nil => simp [filterMiddle]
    | cons b t =>
      rw [show filterMiddle (a :: b :: t) =
          a :: ((b :: t).dropLast.filter (fun s => s ≠ []) ++ [(b :: t).getLastD []])
          from rfl]
      simp

lemma filterMiddle_getLast (l : List Chars) (h : l ≠ []) :
    (filterMiddle l).getLastD [] = l.getLastD [] := by
  cases l with
  | nil => exact absurd rfl h
  | cons a rest =>
    cases rest with
    | nil => rfl
    | cons b t =>
      rw [show filterMiddle (a :: b :: t) =
          a :: ((b :: t).dropLast.filter (fun s => s ≠ []) ++ [(b :: t).getLastD []])
          from rfl]
      rw [List.getLastD_cons, List.getLastD_concat]
      simp [List.getLastD_cons]

lemma resolveSegs_append_single (l : List Chars) (a : Chars) :
    resolveSegs (l ++ [a]) =
      if a = ['.', '.'] then (resolveSegs l).dropLast
      else if a = ['.'] then resolveSegs l
      else resolveSegs l ++ [a] := by
  unfold resolveSegs
  rw [List.foldl_concat]

lemma foldl_resolve_mem : ∀ (l : List Chars) (acc : List Chars),
    ∀ s ∈ List.foldl
      (fun acc seg => if seg = ['.', '.'] then acc.dropLast
        else if seg = ['.'] then acc else acc ++ [seg]) acc l, s ∈ acc ∨ s ∈ l := by
  intro l
  induction l with
  | nil =>
    intro acc s hs
    exact Or.inl hs
  | cons a t ih =>
    intro acc s hs
    simp only [List.foldl_cons] at hs
    rcases ih _ s hs with h | h
    · by_cases h1 : a = ['.', '.']
      · rw [if_pos h1] at h
        exact Or.inl ((List.dropLast_sublist _).mem h)
      · rw [if_neg h1] at h
        by_cases h2 : a = ['.']
        · rw [if_pos h2] at h
          exact Or.inl h
        · rw [if_neg h2] at h
          rcases List.mem_append.mp h with h | h
          · exact Or.inl h
          · simp only [List.mem_singleton] at h
            subst h
            exact Or.inr (by simp)
    · exact Or.inr (List.mem_cons_of_mem _ h)

lemma mem_resolveSegs {l : List Chars} : ∀ s ∈ resolveSegs l, s ∈ l := by
  intro s hs
  rcases foldl_resolve_mem l [] s hs with h | h
  · simp at h
  · exact h

lemma mem_resolvedOf {l : List Chars} : ∀ s ∈ resolvedOf l, s ∈ l ∨ s = [] := by
  intro s hs
  unfold resolvedOf at hs
  split at hs
  · rcases List.mem_append.mp hs with hs | hs
    · exact Or.inl (mem_resolveSegs s hs)
    · simp only [List.mem_singleton] at hs
      exact Or.inr hs
  · exact Or.inl (mem_resolveSegs s hs)

lemma resolvedOf_getLast (segs : List Chars) (hne : segs ≠ []) :
    (resolvedOf segs).getLastD [] = [] ∨
    (resolvedOf segs).getLastD [] = segs.getLastD [] := by
  unfold resolvedOf
  split
  · left
    rw [List.getLastD_concat]
  case isFalse hdot =>
    rcases List.eq_nil_or_concat segs with rfl | ⟨L, a, rfl⟩
    · exact absurd rfl hne
    · right
      rw [List.concat_eq_append] at hdot ⊢
      have hla : (L ++ [a]).getLastD ([] : Chars) = a := List.getLastD_concat _ _ _
      rw [hla] at hdot ⊢
      push_neg at hdot
      rw [resolveSegs_append_single, if_neg hdot.2, if_neg hdot.1,
        List.getLastD_concat]

lemma joinWith_cons_cons (a b : Chars) (t : List Chars) :
    joinWith ['/'] (a :: b :: t) = a ++ ['/'] ++ joinWith ['/'] (b :: t) := rfl

lemma joinWith_chars {L : List Chars} :
    ∀ c ∈ joinWith ['/'] L, c = '/' ∨ ∃ s ∈ L, c ∈ s := by
  induction L with
  | nil => simp [joinWith]
  | cons a rest ih =>
    cases rest with
    | nil =>
      intro c hc
      right
      exact ⟨a, by simp, by simpa [joinWith] using hc⟩
    | cons b t =>
      intro c hc
      rw [joinWith_cons_cons] at hc
      rcases List.mem_append.mp hc with hc | hc
      · rcases List.mem_append.mp hc with hc | hc
        · right; exact ⟨a, by simp, hc⟩
        · left; simpa using hc
      · rcases ih c hc with h | ⟨s, hs, hcs⟩
        · left; exact h
        · right; exact ⟨s, List.mem_cons_of_mem _ hs, hcs⟩

lemma joinWith_lastSeg {L : List Chars} (hL : L ≠ [])
    (hfree : ∀ s ∈ L, '/' ∉ s) :
    lastSeg (joinWith ['/'] L) = L.getLastD [] := by
  induction L with
  | nil => exact absurd rfl hL
  | cons a rest ih =>
    cases rest with
    | nil =>
      show lastSeg a = _
      rw [lastSeg_eq_self (hfree a (by simp))]
      rfl
    | cons b t =>
      rw [joinWith_cons_cons, List.append_assoc]
      rw [lastSeg_append_mem (by simp)]
      show lastSeg ('/' :: joinWith ['/'] (b :: t)) = _
      rw [lastSeg_slash_cons]
      rw [ih (by simp) (fun s hs => hfree s (List.mem_cons_of_mem _ hs))]
      simp [List.getLastD_cons]

/-! ## Helper lemmas: `joinSegments` and `joinedPathOf` -/

lemma joinSegments_chars {bpath upath : Chars} :
    ∀ s ∈ joinSegments bpath upath, ∀ c ∈ s, c ∈ upath ∨ c ∈ bpath := by
  intro s hs c hc
  unfold joinSegments at hs
  split at hs
  · exact Or.inl (splitOnChar_chars '/' upath s hs c hc)
  · have hs' := filterMiddle_mem s hs
    rcases List.mem_append.mp hs' with hs' | hs'
    · unfold basePartsOf at hs'
      split at hs'
      · exact Or.inr
          (splitOnChar_chars '/' bpath s ((List.dropLast_sublist _).mem hs') c hc)
      · exact Or.inr (splitOnChar_chars '/' bpath s hs' c hc)
    · exact Or.inl (splitOnChar_chars '/' upath s hs' c hc)

lemma joinSegments_slash_free {bpath upath : Chars} :
    ∀ s ∈ joinSegments bpath upath, '/' ∉ s := by
  intro s hs
  unfold joinSegments at hs
  split at hs
  · exact splitOnChar_elems_free '/' upath s hs
  · have hs' := filterMiddle_mem s hs
    rcases List.mem_append.mp hs' with hs' | hs'
    · unfold basePartsOf at hs'
      split at hs'
      · exact splitOnChar_elems_free '/' bpath s ((List.dropLast_sublist _).mem hs')
      · exact splitOnChar_elems_free '/' bpath s hs'
    · exact splitOnChar_elems_free '/' upath s hs'

lemma joinSegments_ne_nil (bpath upath : Chars) : joinSegments bpath upath ≠ [] := by
  unfold joinSegments
  split
  · exact splitOnChar_ne_nil _ _
  · apply filterMiddle_ne_nil
    intro h
    rcases List.append_eq_nil.mp h with ⟨_, h2⟩
    exact splitOnChar_ne_nil '/' upath h2

lemma joinSegments_getLast (bpath upath : Chars) :
    (joinSegments bpath upath).getLastD [] = lastSeg upath := by
  unfold joinSegments
  split
  · exact splitOnChar_getLast upath
  · rw [filterMiddle_getLast _ (by
      intro h
      rcases List.append_eq_nil.mp h with ⟨_, h2⟩
      exact splitOnChar_ne_nil '/' upath h2)]
    rw [getLastD_append (splitOnChar_ne_nil '/' upath)]
    exact splitOnChar_getLast upath

lemma joinedPathOf_chars {segs : List Chars} :
    ∀ c ∈ joinedPathOf segs, c = '/' ∨ ∃ s ∈ segs, c ∈ s := by
  intro c hc
  unfold joinedPathOf at hc
  split at hc
  · left; simpa using hc
  · rcases joinWith_chars c hc with h | ⟨s, hs, hcs⟩
    · left; exact h
    · rcases mem_resolvedOf s hs with h | rfl
      · right; exact ⟨s, h, hcs⟩
      · simp at hcs

lemma joinedPathOf_ne_nil (segs : List Chars) : joinedPathOf segs ≠ [] := by
  unfold joinedPathOf
  split
  · simp
  case isFalse h => exact h

lemma joinedPathOf_lastSeg_free {segs : List Chars} (hne : segs ≠ [])
    (hfree : ∀ s ∈ segs, '/' ∉ s) (hlast : ';' ∉ segs.getLastD []) :
    ';' ∉ lastSeg (joinedPathOf segs) := by
  unfold joinedPathOf
  split
  · show ';' ∉ lastSeg ['/']
    intro h
    rw [show lastSeg ['/'] = [] from rfl] at h
    simp at h
  case isFalse hjw =>
    have hres_ne : resolvedOf segs ≠ [] := by
      intro h
      exact hjw (by rw [h]; rfl)
    rw [joinWith_lastSeg hres_ne (fun s hs => by
      rcases mem_resolvedOf s hs with h | rfl
      · exact hfree s h
      · simp)]
    rcases resolvedOf_getLast segs hne with h | h
    · rw [h]; simp
    · rw [h]; exact hlast

/-! ## Helper lemmas: `parseParams` character facts -/

lemma mem_lastSeg {c : Char} {x : Chars} (h : c ∈ lastSeg x) : c ∈ x := by
  have h2 : c ∈ initPart x ++ lastSeg x := List.mem_append.mpr (Or.inr h)
  rwa [initPart_append_lastSeg] at h2

lemma mem_initPart {c : Char} {x : Chars} (h : c ∈ initPart x) : c ∈ x := by
  have h2 : c ∈ initPart x ++ lastSeg x := List.mem_append.mpr (Or.inl h)
  rwa [initPart_append_lastSeg] at h2

lemma parseParams_fst_lastSeg_free (x : Chars) :
    ';' ∉ lastSeg (parseParams "https".data x).1 := by
  unfold parseParams
  split
  case isTrue hcond =>
    rcases hbo : (breakOn ';' (lastSeg x)).2 with _ | ⟨c, ps⟩
    · have hfree : ';' ∉ lastSeg x := by
        intro hmem
        have := List.dropWhile_eq_nil_iff.mp hbo _ hmem
        simp at this
      rw [splitParams_no hfree]
      exact hfree
    · have hc : c = ';' := by
        have h := @dropWhile_head_prop (fun c => decide (c ≠ ';')) (lastSeg x)
        rw [show List.dropWhile (fun c => decide (c ≠ ';')) (lastSeg x) =
            (breakOn ';' (lastSeg x)).2 from rfl, hbo] at h
        rcases h with h | h
        · exact absurd h (by simp)
        · simpa using h
      subst hc
      have hfree1 : ';' ∉ (breakOn ';' (lastSeg x)).1 := by
        intro hmem
        have := List.mem_takeWhile_imp hmem
        simp at this
      have hdecomp : lastSeg x = (breakOn ';' (lastSeg x)).1 ++ ';' :: ps := by
        conv_lhs => rw [← List.takeWhile_append_dropWhile
          (fun c => decide (c ≠ ';')) (lastSeg x)]
        rw [show List.dropWhile (fun c => decide (c ≠ ';')) (lastSeg x) =
            (breakOn ';' (lastSeg x)).2 from rfl, hbo]
        rfl
      rw [splitParams_split hdecomp hfree1]
      show ';' ∉ lastSeg (initPart x ++ (breakOn ';' (lastSeg x)).1)
      rw [@lastSeg_append_free (initPart x) ((breakOn ';' (lastSeg x)).1)
        (initPart_shape x) (fun hmem =>
          lastSeg_no_slash x ((List.takeWhile_sublist _).mem hmem))]
      exact hfree1
  case isFalse hcond =>
    show ';' ∉ lastSeg x
    intro hmem
    exact hcond ⟨by decide, mem_lastSeg hmem⟩

lemma parseParams_snd_slash_free (x : Chars) :
    '/' ∉ (parseParams "https".data x).2 := by
  unfold parseParams
  split
  · unfold splitParams
    split
    · simp
    · intro hmem
      exact lastSeg_no_slash x
        ((List.dropWhile_sublist _).mem ((List.tail_sublist _).mem hmem))
  · simp

lemma parseParams_fst_chars (x : Chars) :
    ∀ c ∈ (parseParams "https".data x).1, c ∈ x := by
  unfold parseParams
  split
  · unfold splitParams
    split
    · intro c hc; exact hc
    · intro c hc
      rcases List.mem_append.mp hc with hc | hc
      · exact mem_initPart hc
      · exact mem_lastSeg ((List.takeWhile_sublist _).mem hc)
  · intro c hc; exact hc

lemma parseParams_snd_chars (x : Chars) :
    ∀ c ∈ (parseParams "https".data x).2, c ∈ x := by
  unfold parseParams
  split
  · unfold splitParams
    split
    · simp
    · intro c hc
      exact mem_lastSeg
        ((List.dropWhile_sublist _).mem ((List.tail_sublist _).mem hc))
  · simp

lemma mem_reattachParams {c : Char} {pp : Chars × Chars}
    (h : c ∈ reattachParams pp) : c ∈ pp.1 ∨ c = ';' ∨ c ∈ pp.2 := by
  unfold reattachParams at h
  split at h
  · rcases List.mem_append.mp h with h | h
    · exact Or.inl h
    · rcases List.mem_cons.mp h with h | h
      · exact Or.inr (Or.inl h)
      · exact Or.inr (Or.inr h)
  · exact Or.inl h

/-! ## Helper lemmas: `slashPath` stability -/

lemma slashPath_shape (P : Chars) :
    slashPath P = [] ∨ (slashPath P).headD ' ' = '/' := by
  unfold slashPath
  split
  case isTrue h => right; simp
  case isFalse h =>
    push_neg at h
    rcases hP : P with _ | ⟨c, cs⟩
    · left; rfl
    · right
      have hc : c = '/' := by
        have := h (by rw [hP]; simp)
        rw [hP] at this
        simpa using this
      simp [hc]

lemma slashPath_eq {P : Chars} (h : P = [] ∨ P.headD ' ' = '/') :
    slashPath P = P := by
  unfold slashPath
  rcases h with rfl | h
  · rfl
  · rw [if_neg (by rintro ⟨hne, hhead⟩; exact hhead h)]

lemma mem_slashPath {c : Char} {P : Chars} (h : c ∈ slashPath P) :
    c = '/' ∨ c ∈ P := by
  unfold slashPath at h
  split at h
  · rcases List.mem_cons.mp h with h | h
    · exact Or.inl h
    · exact Or.inr h
  · exact Or.inr h

lemma pstable_slash_reattach {A ps : Chars} (hA : ';' ∉ lastSeg A)
    (hsl : '/' ∉ ps) : PStable (slashPath (reattachParams (A, ps))) := by
  rcases hps : ps with _ | ⟨d, ds⟩
  · rw [reattachParams_pair_nil]
    unfold slashPath
    split
    · exact pstable_of_lastSeg_free (by rw [lastSeg_slash_cons]; exact hA)
    · exact pstable_of_lastSeg_free hA
  · subst hps
    have hre : reattachParams (A, d :: ds) = A ++ ';' :: d :: ds := by
      unfold reattachParams
      rw [if_pos (by simp)]

    rw [hre]
    unfold slashPath
    split
    · show PStable ('/' :: (A ++ ';' :: d :: ds))
      rw [show ('/' :: (A ++ ';' :: d :: ds) : Chars) = ('/' :: A) ++ ';' :: d :: ds
        by simp]
      exact pstable_append_params (by rw [lastSeg_slash_cons]; exact hA) (by simp) hsl
    · exact pstable_append_params hA (by simp) hsl

/-! ## Round trip: parsing a reassembled `https://…` URL -/

lemma splitScheme_https (rest : Chars) :
    splitScheme ('h' :: 't' :: 't' :: 'p' :: 's' :: ':' :: rest) =
      some ("https".data, rest) := by
  have hpre : schemePre ('h' :: 't' :: 't' :: 'p' :: 's' :: ':' :: rest) =
      "https".data := rfl
  unfold splitScheme
  rw [if_pos]
  · rfl
  · refine ⟨?_, ?_, ?_, ?_⟩
    · rw [hpre]
      show 5 < _
      simp only [List.length_cons]
      omega
    · rw [hpre]; decide
    · rw [hpre]; decide
    · rw [hpre]; decide

lemma schemeOf_some {url s r : Chars} (d : Chars) (h : splitScheme url = some (s, r)) :
    schemeOf url d = s := by
  unfold schemeOf
  rw [h]

lemma schemeRest_some {url s r : Chars} (h : splitScheme url = some (s, r)) :
    schemeRest url = r := by
  unfold schemeRest
  rw [h]

lemma splitNetloc_cons (rest : Chars) :
    splitNetloc ('/' :: '/' :: rest) =
      (rest.takeWhile (fun c => !netlocEnd c),
       rest.dropWhile (fun c => !netlocEnd c)) := rfl

lemma urlunsplit_https_eq (n P f : Chars) (hn : n ≠ []) :
    urlunsplit ⟨"https".data, n, P, [], f⟩ =
      'h' :: 't' :: 't' :: 'p' :: 's' :: ':' :: '/' :: '/' ::
        (n ++ (slashPath P ++ (if f = [] then [] else '#' :: f))) := by
  unfold urlunsplit unsplitPath
  rw [if_pos (Or.inl hn)]
  rw [if_pos (by decide : ¬("https".data : Chars) = [])]
  rw [if_neg (by simp : ¬(([] : Chars) ≠ []))]
  rcases f with _ | ⟨c, cs⟩
  · rw [if_neg (by simp : ¬(([] : Chars) ≠ []))]
    simp
  · rw [if_pos (by simp : ((c :: cs : Chars) ≠ []))]
    rw [if_neg (by simp : ¬((c :: cs : Chars) = []))]
    show ("https".data ++ ':' :: '/' :: '/' :: (n ++ slashPath P)) ++ [] ++
        '#' :: c :: cs = _
    simp [List.append_assoc]

lemma headD_append_stop {p : Char → Bool} {t : Chars}
    (h : t = [] ∨ p (t.headD ' ') = false) (n : Chars) (hnall : ∀ c ∈ n, p c = true) :
    (n ++ t).takeWhile p = n ∧ (n ++ t).dropWhile p = t :=
  ⟨takeWhile_append_all hnall h, dropWhile_append_all hnall h⟩

lemma urlsplit_unsplit (n P f : Chars) (hn : n ≠ [])
    (hnc : ∀ c ∈ n, netlocEnd c = false)
    (hPq : '?' ∉ P) (hPh : '#' ∉ P) (hfq : '?' ∉ f) (d : Chars) :
    urlsplit (urlunsplit ⟨"https".data, n, P, [], f⟩) d =
      ⟨"https".data, n, slashPath P, [], f⟩ := by
  have hSPq : '?' ∉ slashPath P := by
    intro h
    rcases mem_slashPath h with h | h
    · exact absurd h (by decide)
    · exact hPq h
  have hSPh : '#' ∉ slashPath P := by
    intro h
    rcases mem_slashPath h with h | h
    · exact absurd h (by decide)
    · exact hPh h
  rw [urlunsplit_https_eq n P f hn]
  have hss := splitScheme_https
    ('/' :: '/' :: (n ++ (slashPath P ++ (if f = [] then [] else '#' :: f))))
  have hstop : (slashPath P ++ (if f = [] then [] else '#' :: f)) = [] ∨
      (fun c => !netlocEnd c)
        ((slashPath P ++ (if f = [] then [] else '#' :: f)).headD ' ') = false := by
    rcases hsp : slashPath P with _ | ⟨c, cs⟩
    · rcases hf : f with _ | ⟨e, es⟩
      · left; rfl
      · right
        rw [if_neg (by simp)]
        simp [netlocEnd]
    · right
      have hhead : c = '/' := by
        rcases slashPath_shape P with h | h
        · rw [hsp] at h; exact absurd h (by simp)
        · rw [hsp] at h; simpa using h
      subst hhead
      simp [netlocEnd]
  have hnall : ∀ c ∈ n, (fun c => !netlocEnd c) c = true := by
    intro c hc
    simp [hnc c hc]
  have htake : ((n ++ (slashPath P ++ (if f = [] then [] else '#' :: f)))).takeWhile
      (fun c => !netlocEnd c) = n := takeWhile_append_all hnall hstop
  have hdrop : ((n ++ (slashPath P ++ (if f = [] then [] else '#' :: f)))).dropWhile
      (fun c => !netlocEnd c) = slashPath P ++ (if f = [] then [] else '#' :: f) :=
    dropWhile_append_all hnall hstop
  have hbreak : breakOn '#' (slashPath P ++ (if f = [] then [] else '#' :: f)) =
      (slashPath P, (if f = [] then [] else '#' :: f)) := by
    rcases f with _ | ⟨e, es⟩
    · rw [if_pos rfl, List.append_nil]
      have h1 := @breakOn_fst_all '#' _ hSPh
      have h2 := @breakOn_snd_nil '#' _ hSPh
      calc breakOn '#' (slashPath P)
          = ((breakOn '#' (slashPath P)).1, (breakOn '#' (slashPath P)).2) := rfl
        _ = (slashPath P, []) := by rw [h1, h2]
    · rw [if_neg (by simp)]
      exact breakOn_split hSPh
  have hq : breakOn '?' (slashPath P) = (slashPath P, []) := by
    have h1 := @breakOn_fst_all '?' _ hSPq
    have h2 := @breakOn_snd_nil '?' _ hSPq
    calc breakOn '?' (slashPath P)
        = ((breakOn '?' (slashPath P)).1, (breakOn '?' (slashPath P)).2) := rfl
      _ = (slashPath P, []) := by rw [h1, h2]
  have hft : (if f = [] then ([] : Chars) else '#' :: f).tail = f := by
    rcases f with _ | ⟨e, es⟩ <;> simp
  unfold urlsplit
  rw [schemeOf_some d hss, schemeRest_some hss, splitNetloc_cons]
  rw [show ((n ++ (slashPath P ++ (if f = [] then [] else '#' :: f))).takeWhile
        (fun c => !netlocEnd c),
      (n ++ (slashPath P ++ (if f = [] then [] else '#' :: f))).dropWhile
        (fun c => !netlocEnd c)).1 =
      (n ++ (slashPath P ++ (if f = [] then [] else '#' :: f))).takeWhile
        (fun c => !netlocEnd c) from rfl]
  rw [htake, hdrop, hbreak]
  show (⟨"https".data, n, (breakOn '?' (slashPath P)).1,
    (breakOn '?' (slashPath P)).2.tail,
    (if f = [] then ([] : Chars) else '#' :: f).tail⟩ : UrlParts) = _
  rw [hq, hft]
  rfl

/-! ## The fixed-point property of `urljoin` against the crawler's base URL -/

lemma urlsplit_base : urlsplit baseUrl.data [] =
    ⟨"https".data, "www.classcentral.com".data, [], [], []⟩ := by decide

lemma base_schemeRest : schemeRest baseUrl.data =
    '/' :: '/' :: "www.classcentral.com".data := by decide

/-- `urljoin base (urlunsplit ⟨https, n, P, [], f⟩) = urlunsplit ⟨…⟩`:
any URL already shaped like an assembled absolute `https` URL (question-mark
free, with a params-stable path) is a fixed point of resolution against the
base. -/
lemma joinFix (n P f : Chars) (hn : n ≠ [])
    (hnc : ∀ c ∈ n, netlocEnd c = false)
    (hPq : '?' ∉ P) (hPh : '#' ∉ P) (hfq : '?' ∉ f)
    (hstab : PStable (slashPath P)) :
    urljoin baseUrl.data (urlunsplit ⟨"https".data, n, P, [], f⟩) =
      urlunsplit ⟨"https".data, n, P, [], f⟩ := by
  have hne : urlunsplit ⟨"https".data, n, P, [], f⟩ ≠ [] := by
    rw [urlunsplit_https_eq n P f hn]
    simp
  unfold urljoin
  rw [if_neg (by decide : ¬(baseUrl.data : Chars) = []), if_neg hne]
  rw [urlsplit_base]
  rw [show (⟨"https".data, "www.classcentral.com".data, [], [], []⟩ :
    UrlParts).scheme = "https".data from rfl]
  rw [urlsplit_unsplit n P f hn hnc hPq hPh hfq "https".data]
  show joinResolve ⟨"https".data, "www.classcentral.com".data, [], [], []⟩
    ⟨"https".data, n, slashPath P, [], f⟩ (urlunsplit ⟨"https".data, n, P, [], f⟩) = _
  unfold joinResolve
  rw [if_neg (by
    simp only [not_or]
    constructor
    · simp
    · simp only [not_not]
      exact (by decide : ("https".data : Chars) ∈ usesRelative))]
  rw [if_pos ⟨(by decide : ("https".data : Chars) ∈ usesNetloc), hn⟩]
  show urlunsplit ⟨"https".data, n,
    reattachParams (parseParams "https".data (slashPath P)), [], f⟩ = _
  rw [show reattachParams (parseParams "https".data (slashPath P)) = slashPath P
    from hstab]
  rw [urlunsplit_https_eq _ _ _ hn, urlunsplit_https_eq _ _ _ hn]
  rw [slashPath_eq (slashPath_shape P)]

lemma initPart_ne_nil {x : Chars} (h : '/' ∈ x) : initPart x ≠ [] := by
  intro hnil
  have hx := initPart_append_lastSeg x
  rw [hnil, List.nil_append] at hx
  exact lastSeg_no_slash x (hx.symm ▸ h)

lemma headD_initPart {x : Chars} (h : initPart x ≠ []) :
    (initPart x).headD ' ' = x.headD ' ' := by
  conv_rhs => rw [← initPart_append_lastSeg x]
  exact (headD_append_left ' ' h).symm

/-- Re-attaching the params split of a path that is empty or `/`-headed yields
a path that is empty or `/`-headed. -/
lemma reattach_parse_shape {x : Chars} (hx : x = [] ∨ x.headD ' ' = '/') :
    reattachParams (parseParams "https".data x) = [] ∨
    (reattachParams (parseParams "https".data x)).headD ' ' = '/' := by
  rcases hx with rfl | hx
  · left; rfl
  · rcases hxe : x with _ | ⟨c, cs⟩
    · left; rfl
    · have hc : c = '/' := by rw [hxe] at hx; simpa using hx
      subst hc
      have hmem : '/' ∈ x := by rw [hxe]; simp
      rw [← hxe] at *
      right
      unfold parseParams
      split
      · unfold splitParams
        split
        · show (reattachParams (x, [])).headD ' ' = '/'
          rw [reattachParams_pair_nil]
          exact hx
        · have hip := initPart_ne_nil hmem
          unfold reattachParams
          split
          · show ((initPart x ++ (breakOn ';' (lastSeg x)).1) ++
              ';' :: ((breakOn ';' (lastSeg x)).2).tail).headD ' ' = '/'
            rw [headD_append_left _ (by simp [hip]),
              headD_append_left _ hip, headD_initPart hip]
            exact hx
          · show (initPart x ++ (breakOn ';' (lastSeg x)).1).headD ' ' = '/'
            rw [headD_append_left _ hip, headD_initPart hip]
            exact hx
      · show (reattachParams (x, [])).headD ' ' = '/'
        rw [reattachParams_pair_nil]
        exact hx

/-- The possible outcomes of `urljoin base p` for a question-mark-free `p`:
either `p` is returned unchanged (foreign scheme), or an assembled absolute
`https` URL whose parts satisfy the fixed-point conditions. -/
lemma urljoin_result_form {p : Chars} (hq : '?' ∉ p) (hp : p ≠ []) :
    (urljoin baseUrl.data p = p ∧
      ((urlsplit p "https".data).scheme ≠
        (⟨"https".data, "www.classcentral.com".data, [], [], []⟩ : UrlParts).scheme ∨
       (urlsplit p "https".data).scheme ∉ usesRelative)) ∨
    ∃ n P f, n ≠ [] ∧ (∀ c ∈ n, netlocEnd c = false) ∧ '?' ∉ P ∧ '#' ∉ P ∧
      '?' ∉ f ∧ PStable (slashPath P) ∧
      urljoin baseUrl.data p = urlunsplit ⟨"https".data, n, P, [], f⟩ := by
  have hjr : urljoin baseUrl.data p =
      joinResolve ⟨"https".data, "www.classcentral.com".data, [], [], []⟩
        (urlsplit p "https".data) p := by
    unfold urljoin
    rw [if_neg (by decide : ¬(baseUrl.data : Chars) = []), if_neg hp, urlsplit_base]
  have hquery : (urlsplit p "https".data).query = [] :=
    urlsplit_query_eq_nil _ hq
  have hpathq : '?' ∉ (urlsplit p "https".data).path :=
    urlsplit_path_no_questionmark p _
  have hpathh : '#' ∉ (urlsplit p "https".data).path :=
    urlsplit_path_no_hash p _
  have hfragq : '?' ∉ (urlsplit p "https".data).frag := fun hmem =>
    hq ((urlsplit_frag_sublist p _).mem hmem)
  by_cases hsch : (urlsplit p "https".data).scheme = "https".data
  case neg =>
    left
    refine ⟨?_, Or.inl hsch⟩
    rw [hjr]
    unfold joinResolve
    rw [if_pos (Or.inl hsch)]
  case pos =>
    right
    have hcond1 : ¬((urlsplit p "https".data).scheme ≠
        (⟨"https".data, "www.classcentral.com".data, [], [], []⟩ : UrlParts).scheme ∨
        (urlsplit p "https".data).scheme ∉ usesRelative) := by
      rw [hsch]
      simp only [not_or, not_not, ne_eq]
      exact ⟨by trivial, by decide⟩
    by_cases hnet : (urlsplit p "https".data).netloc = []
    case neg =>
      have hshape := @urlsplit_path_shape p "https".data hq hnet
      refine ⟨(urlsplit p "https".data).netloc,
        reattachParams (parseParams "https".data (urlsplit p "https".data).path),
        (urlsplit p "https".data).frag,
        hnet, urlsplit_netloc_clean p _, ?_, ?_, hfragq, ?_, ?_⟩
      · intro hmem
        rcases mem_reattachParams hmem with h | h | h
        · exact hpathq (parseParams_fst_chars _ _ h)
        · exact absurd h (by decide)
        · exact hpathq (parseParams_snd_chars _ _ h)
      · intro hmem
        rcases mem_reattachParams hmem with h | h | h
        · exact hpathh (parseParams_fst_chars _ _ h)
        · exact absurd h (by decide)
        · exact hpathh (parseParams_snd_chars _ _ h)
      · rw [slashPath_eq (reattach_parse_shape hshape)]
        exact parseParams_stable _
      · rw [hjr]
        unfold joinResolve
        rw [if_neg hcond1]
        rw [if_pos ⟨(by rw [hsch]; decide), hnet⟩]
        rw [hsch, hquery]
    case pos =>
      have hcond2 : ¬((urlsplit p "https".data).scheme ∈ usesNetloc ∧
          (urlsplit p "https".data).netloc ≠ []) := by
        rintro ⟨_, hne⟩
        exact hne hnet
      by_cases hpp : (parseParams "https".data (urlsplit p "https".data).path).1 = []
          ∧ (parseParams "https".data (urlsplit p "https".data).path).2 = []
      case pos =>
        refine ⟨"www.classcentral.com".data, [], (urlsplit p "https".data).frag,
          by decide, by decide, by simp, by simp, hfragq, ?_, ?_⟩
        · rw [slashPath_eq (Or.inl rfl)]
          exact pstable_of_lastSeg_free (by
            intro h
            rw [show lastSeg [] = [] from rfl] at h
            simp at h)
        · rw [hjr]
          unfold joinResolve
          rw [if_neg hcond1, if_neg hcond2]
          rw [if_pos (by rw [hsch]; exact hpp)]
          rw [hsch, hquery]
          rw [if_pos (by decide : ("https".data : Chars) ∈ usesNetloc)]
          rfl
      case neg =>
        have hlastfree : ';' ∉ lastSeg (joinedPathOf (joinSegments []
            (parseParams "https".data (urlsplit p "https".data).path).1)) := by
          apply joinedPathOf_lastSeg_free (joinSegments_ne_nil _ _)
            joinSegments_slash_free
          rw [joinSegments_getLast]
          exact parseParams_fst_lastSeg_free _
        have hJq : '?' ∉ joinedPathOf (joinSegments []
            (parseParams "https".data (urlsplit p "https".data).path).1) := by
          intro hmem
          rcases joinedPathOf_chars _ hmem with h | ⟨s, hs, hcs⟩
          · exact absurd h (by decide)
          · rcases joinSegments_chars s hs _ hcs with h | h
            · exact hpathq (parseParams_fst_chars _ _ h)
            · simp at h
        have hJh : '#' ∉ joinedPathOf (joinSegments []
            (parseParams "https".data (urlsplit p "https".data).path).1) := by
          intro hmem
          rcases joinedPathOf_chars _ hmem with h | ⟨s, hs, hcs⟩
          · exact absurd h (by decide)
          · rcases joinSegments_chars s hs _ hcs with h | h
            · exact hpathh (parseParams_fst_chars _ _ h)
            · simp at h
        refine ⟨"www.classcentral.com".data,
          reattachParams (joinedPathOf (joinSegments []
            (parseParams "https".data (urlsplit p "https".data).path).1),
            (parseParams "https".data (urlsplit p "https".data).path).2),
          (urlsplit p "https".data).frag,
          by decide, by decide, ?_, ?_, hfragq, ?_, ?_⟩
        · intro hmem
          rcases mem_reattachParams hmem with h | h | h
          · exact hJq h
          · exact absurd h (by decide)
          · exact hpathq (parseParams_snd_chars _ _ h)
        · intro hmem
          rcases mem_reattachParams hmem with h | h | h
          · exact hJh h
          · exact absurd h (by decide)
          · exact hpathh (parseParams_snd_chars _ _ h)
        · exact pstable_slash_reattach hlastfree (parseParams_snd_slash_free _)
        · rw [hjr]
          unfold joinResolve
          rw [if_neg hcond1, if_neg hcond2]
          rw [if_neg (by rw [hsch]; exact hpp)]
          rw [hsch, hquery]
          rw [if_pos (by decide : ("https".data : Chars) ∈ usesNetloc)]
          rfl

/-- Resolving a question-mark-free URL against the base URL is idempotent. -/
lemma urljoin_strip_fix {p : Chars} (hq : '?' ∉ p) :
    urljoin baseUrl.data (urljoin baseUrl.data p) = urljoin baseUrl.data p := by
  by_cases hp : p = []
  · subst hp
    rw [show urljoin baseUrl.data [] = baseUrl.data from rfl]
    decide
  · rcases urljoin_result_form hq hp with ⟨heq, hcond⟩ |
      ⟨n, P, f, hn, hnc, hPq, hPh, hfq, hstab, heq⟩
    · rw [heq]
      unfold urljoin
      rw [if_neg (by decide : ¬(baseUrl.data : Chars) = []), if_neg hp, urlsplit_base]
      unfold joinResolve
      rw [if_pos hcond]
    · rw [heq]
      exact joinFix n P f hn hnc hPq hPh hfq hstab

lemma urlunsplit_no_questionmark {n P f : Chars} (hn : n ≠ [])
    (hnc : ∀ c ∈ n, netlocEnd c = false) (hPq : '?' ∉ P) (hfq : '?' ∉ f) :
    '?' ∉ urlunsplit ⟨"https".data, n, P, [], f⟩ := by
  rw [urlunsplit_https_eq n P f hn]
  intro hmem
  simp only [List.mem_cons, List.mem_append] at hmem
  rcases hmem with h | h | h | h | h | h | h | h | h | h | h
  · exact absurd h (by decide)
  · exact absurd h (by decide)
  · exact absurd h (by decide)
  · exact absurd h (by decide)
  · exact absurd h (by decide)
  · exact absurd h (by decide)
  · exact absurd h (by decide)
  · exact absurd h (by decide)
  · have := hnc '?' h
    simp [netlocEnd] at this
  · rcases mem_slashPath h with h | h
    · exact absurd h (by decide)
    · exact hPq h
  · rcases hf : f with _ | ⟨e, es⟩
    · rw [hf] at h
      simp at h
    · rw [hf] at h
      rw [if_neg (by simp)] at h
      rcases List.mem_cons.mp h with h | h
      · exact absurd h (by decide)
      · rw [hf] at hfq
        exact hfq h

/-- Resolution against the base introduces no question mark. -/
lemma urljoin_no_questionmark {p : Chars} (hq : '?' ∉ p) :
    '?' ∉ urljoin baseUrl.data p := by
  by_cases hp : p = []
  · subst hp
    rw [show urljoin baseUrl.data [] = baseUrl.data from rfl]
    decide
  · rcases urljoin_result_form hq hp with ⟨heq, _⟩ |
      ⟨n, P, f, hn, hnc, hPq, _, hfq, _, heq⟩
    · rw [heq]
      exact hq
    · rw [heq]
      exact urlunsplit_no_questionmark hn hnc hPq hfq

/-- Canonicalization (strip query, resolve against the base) is idempotent. -/
lemma canonChars_idem (s : Chars) : canonChars (canonChars s) = canonChars s := by
  unfold canonChars
  rw [stripQuery_eq_self (urljoin_no_questionmark (stripQuery_no_questionmark s))]
  exact urljoin_strip_fix (stripQuery_no_questionmark s)

/-- String-level idempotence of the crawler's canonicalization. -/
lemma canon_idem (s : String) : canon (canon s) = canon s :=
  congrArg String.mk (canonChars_idem s.data)

/-- Two URLs differing only in their query string canonicalize equally. -/
lemma canon_query_invariant (p q₁ q₂ : String) (h : '?' ∉ p.data) :
    canon (p ++ "?" ++ q₁) = canon (p ++ "?" ++ q₂) := by
  unfold canon canonChars
  have hdata : ∀ q : String, (p ++ "?" ++ q).data = p.data ++ '?' :: q.data := by
    intro q
    rw [String.data_append, String.data_append, List.append_assoc]
    rfl
  rw [hdata q₁, hdata q₂, stripQuery_append h, stripQuery_append h]

/-! ## Helper lemmas: the crawler components -/

/-- Every element the HTML link extractor produces is a canonicalization
fixed point. -/
lemma course_links_canonical (hrefs : List String) :
    ∀ u ∈ course_links_from_html hrefs, canon u = u := by
  unfold course_links_from_html
  suffices h : ∀ (l : List String) (S : Finset String), (∀ u ∈ S, canon u = u) →
      ∀ u ∈ l.foldl (fun urls href =>
        if strContains href "/course/" ∧ href ≠ "" then insert (canon href) urls
        else urls) S, canon u = u by
    exact h hrefs ∅ (by simp)
  intro l
  induction l with
  | nil =>
    intro S hS u hu
    exact hS u hu
  | cons h t ih =>
    intro S hS u hu
    simp only [List.foldl_cons] at hu
    refine ih _ ?_ u hu
    intro v hv
    split at hv
    · rcases Finset.mem_insert.mp hv with rfl | hv
      · exact canon_idem h
      · exact hS v hv
    · exact hS v hv

lemma scrape_courses_length (outcome : String → Option CourseRecord)
    (urls : List String) :
    (scrape_courses outcome urls).length =
      urls.length - urls.countP (fun u => (outcome u).isNone) := by
  unfold scrape_courses
  induction urls with
  | nil => rfl
  | cons u t ih =>
    rw [List.filterMap_cons]
    have hle : t.countP (fun u => (outcome u).isNone) ≤ t.length :=
      List.countP_le_length _
    rcases ho : outcome u with _ | r
    · rw [ih, List.countP_cons]
      simp [ho]
    · rw [List.length_cons, ih, List.countP_cons]
      simp [ho]
      omega

lemma scrape_courses_isolation (outcome : String → Option CourseRecord)
    (pre post : List String) (v : String) :
    scrape_courses outcome (pre ++ v :: post) =
      scrape_courses outcome pre ++ (outcome v).toList ++ scrape_courses outcome post := by
  unfold scrape_courses
  rw [List.filterMap_append, List.filterMap_cons]
  rcases ho : outcome v with _ | r <;> simp [ho, Option.toList]

lemma scrape_courses_map_url_sublist (outcome : String → Option CourseRecord)
    (h : ∀ u r, outcome u = some r → r.url = u) (us : List String) :
    ((scrape_courses outcome us).map (fun r => r.url)).Sublist us := by
  unfold scrape_courses
  induction us with
  | nil => simp
  | cons u t ih =>
    rw [List.filterMap_cons]
    rcases ho : outcome u with _ | r
    · exact ih.cons u
    · rw [List.map_cons, h u r ho]
      exact ih.cons₂ u

/-! ## Helper lemmas: DOM pagination bounds -/

lemma domWalkGo_fuel_bound (pages : Nat → Finset String) :
    ∀ (fuel p : Nat) (urls : Finset String), (domWalkGo pages fuel p urls).2 ≤ fuel := by
  intro fuel
  induction fuel with
  | zero => intro p urls; exact Nat.le_refl 0
  | succ fuel ih =>
    intro p urls
    show (domWalkGo pages (fuel + 1) p urls).2 ≤ fuel + 1
    unfold domWalkGo
    split
    · simp
    · split
      · simp
      · have := ih (p + 1) (urls ∪ pages p)
        simp only []
        omega

lemma domWalkGo_stop_empty (pages : Nat → Finset String) (K : Nat)
    (hK : pages K = ∅) :
    ∀ (fuel p : Nat) (urls : Finset String), p ≤ K →
      (domWalkGo pages fuel p urls).2 ≤ K - p + 1 := by
  intro fuel
  induction fuel with
  | zero => intro p urls _; simp [domWalkGo]
  | succ fuel ih =>
    intro p urls hp
    by_cases hpe : pages p = ∅
    · unfold domWalkGo
      rw [if_pos hpe]
      omega
    · have hpK : p ≠ K := fun h => hpe (h ▸ hK)
      have hp' : p + 1 ≤ K := by omega
      unfold domWalkGo
      rw [if_neg hpe]
      split
      · show 1 ≤ K - p + 1
        omega
      · have := ih (p + 1) (urls ∪ pages p) hp'
        simp only []
        omega

lemma domWalkGo_stagnant (pages : Nat → Finset String) :
    ∀ (fuel p : Nat) (urls : Finset String), (∀ q, p ≤ q → pages q ⊆ urls) →
      (domWalkGo pages fuel p urls).2 ≤ max (7 - p) 1 := by
  intro fuel
  induction fuel with
  | zero =>
    intro p urls _
    simp [domWalkGo]
  | succ fuel ih =>
    intro p urls h
    by_cases hpe : pages p = ∅
    · unfold domWalkGo
      rw [if_pos hpe]
      exact Nat.le_max_right _ _
    · have hsub : pages p ⊆ urls := h p (Nat.le_refl p)
      have hunion : urls ∪ pages p = urls := Finset.union_eq_left.mpr hsub
      unfold domWalkGo
      rw [if_neg hpe, hunion]
      by_cases hp5 : 5 < p
      · rw [if_pos ⟨rfl, hp5⟩]
        exact Nat.le_max_right _ _
      · rw [if_neg (by rintro ⟨_, hp⟩; exact hp5 hp)]
        have hrec := ih (p + 1) urls (fun q hq => h q (by omega))
        have h1 : max (7 - (p + 1)) 1 = 7 - (p + 1) := Nat.max_eq_left (by omega)
        have h2 : max (7 - p) 1 = 7 - p := Nat.max_eq_left (by omega)
        rw [h1] at hrec
        rw [h2]
        simp only []
        omega

lemma domWalkGo_phase (pages : Nat → Finset String) (K : Nat) (init : Finset String)
    (H : ∀ q, K ≤ q → pages q ⊆ init ∪ (Finset.Ico 2 K).biUnion pages) :
    ∀ (fuel p : Nat) (urls : Finset String), 2 ≤ p → p ≤ K →
      urls = init ∪ (Finset.Ico 2 p).biUnion pages →
      (domWalkGo pages fuel p urls).2 ≤ (K - p) + 5 := by
  intro fuel
  induction fuel with
  | zero => intro p urls _ _ _; simp [domWalkGo]
  | succ fuel ih =>
    intro p urls hp2 hpK hurls
    rcases Nat.eq_or_lt_of_le hpK with rfl | hlt
    · have hsub : ∀ q, p ≤ q → pages q ⊆ urls := by
        intro q hq
        rw [hurls]
        exact H q hq
      have hst := domWalkGo_stagnant pages (fuel + 1) p urls hsub
      have hmax : max (7 - p) 1 ≤ 5 := Nat.max_le.mpr ⟨by omega, by omega⟩
      omega
    · by_cases hpe : pages p = ∅
      · unfold domWalkGo
        rw [if_pos hpe]
        omega
      · unfold domWalkGo
        rw [if_neg hpe]
        split
        · show 1 ≤ K - p + 5
          omega
        · have hurls' : urls ∪ pages p =
              init ∪ (Finset.Ico 2 (p + 1)).biUnion pages := by
            rw [hurls, Nat.Ico_succ_right_eq_insert_Ico hp2, Finset.biUnion_insert]
            rw [Finset.union_assoc, Finset.union_comm ((Finset.Ico 2 p).biUnion pages)
              (pages p), ← Finset.union_assoc]
          have := ih (p + 1) (urls ∪ pages p) (by omega) (by omega) hurls'
          simp only []
          omega

/-! ## Helper lemmas: API pagination bounds -/

lemma apiWalkGo_fuel_bound (pages : Nat → ApiPage) :
    ∀ (fuel p : Nat) (urls : Finset String), (apiWalkGo pages fuel p urls).2 ≤ fuel := by
  intro fuel
  induction fuel with
  | zero => intro p urls; exact Nat.le_refl 0
  | succ fuel ih =>
    intro p urls
    unfold apiWalkGo
    rcases hpg : pages p with _ | _ | links
    · simp
    · simp
    · simp only []
      split
      · simp
      · have := ih (p + 1) (urls ∪ links)
        omega

lemma apiWalkGo_stop (pages : Nat → ApiPage) (K : Nat)
    (hK : pages K = .fetchFail ∨ pages K = .decodeFail ∨ pages K = .ok ∅) :
    ∀ (fuel p : Nat) (urls : Finset String), p ≤ K →
      (apiWalkGo pages fuel p urls).2 ≤ K - p + 1 := by
  intro fuel
  induction fuel with
  | zero => intro p urls _; simp [apiWalkGo]
  | succ fuel ih =>
    intro p urls hp
    unfold apiWalkGo
    rcases hpg : pages p with _ | _ | links
    · show 1 ≤ K - p + 1
      omega
    · show 1 ≤ K - p + 1
      omega
    · simp only []
      split
      · show 1 ≤ K - p + 1
        omega
      case isFalse hne =>
        have hpK : p ≠ K := by
          rintro rfl
          rcases hK with h | h | h <;> rw [hpg] at h
          · exact ApiPage.noConfusion h
          · exact ApiPage.noConfusion h
          · exact hne (by injection h)
        have := ih (p + 1) (urls ∪ links) (by omega)
        omega

lemma apiWalkGo_full (pages : Nat → ApiPage) :
    ∀ (fuel p : Nat) (urls : Finset String),
      (∀ q, p ≤ q → q < p + fuel → ∃ l, pages q = .ok l ∧ l ≠ ∅) →
      (apiWalkGo pages fuel p urls).2 = fuel := by
  intro fuel
  induction fuel with
  | zero => intro p urls _; rfl
  | succ fuel ih =>
    intro p urls h
    obtain ⟨l, hpg, hne⟩ := h p (Nat.le_refl p) (by omega)
    unfold apiWalkGo
    rw [hpg]
    simp only []
    rw [if_neg hne]
    have := ih (p + 1) (urls ∪ l) (fun q hq hq2 => h q (by omega) (by omega))
    omega

/-! ## Helper lemmas: the retry loop -/

lemma fetchRetryGo_count_pos (attempt : Nat → AttemptResult) :
    ∀ (budget n : Nat), 1 ≤ (fetchRetryGo attempt budget n).2 := by
  intro budget n
  unfold fetchRetryGo
  split
  · simp
  · split
    · simp
    · split
      · simp
      · simp

lemma isRetryableError_true (e : FetchError) : isRetryableError e = true := by
  cases e <;> rfl

/-! ## Helper: occurrences of map entries inside a JSON tree -/

/-- `(k, v)` is a map entry somewhere inside the JSON tree. -/
inductive EntryIn (k : String) (v : Json) : Json → Prop where
  | here {kvs : List (String × Json)} (hmem : (k, v) ∈ kvs) : EntryIn k v (.obj kvs)
  | viaObj {kvs : List (String × Json)} {k' : String} {v' : Json}
      (hmem : (k', v') ∈ kvs) (h : EntryIn k v v') : EntryIn k v (.obj kvs)
  | viaArr {xs : List Json} {x : Json} (hmem : x ∈ xs) (h : EntryIn k v x) :
      EntryIn k v (.arr xs)

lemma extractObj_cons (k : String) (v : Json) (rest : List (String × Json)) :
    extractObj ((k, v) :: rest) =
      (entryContrib k v ∪ extractJson v) ∪ extractObj rest := by
  simp [extractObj]

lemma entryContrib_subset_extractObj {k : String} {v : Json}
    {kvs : List (String × Json)} (hmem : (k, v) ∈ kvs) :
    entryContrib k v ⊆ extractObj kvs := by
  induction kvs with
  | nil => simp at hmem
  | cons kv rest ih =>
    rcases kv with ⟨k0, v0⟩
    rcases List.mem_cons.mp hmem with heq | hmem'
    · rw [Prod.mk.injEq] at heq
      rcases heq with ⟨rfl, rfl⟩
      rw [extractObj_cons]
      intro x hx
      exact Finset.mem_union_left _ (Finset.mem_union_left _ hx)
    · rw [extractObj_cons]
      intro x hx
      exact Finset.mem_union_right _ (ih hmem' hx)

lemma extractJson_subset_extractObj {k' : String} {v' : Json}
    {kvs : List (String × Json)} (hmem : (k', v') ∈ kvs) :
    extractJson v' ⊆ extractObj kvs := by
  induction kvs with
  | nil => simp at hmem
  | cons kv rest ih =>
    rcases kv with ⟨k0, v0⟩
    rcases List.mem_cons.mp hmem with heq | hmem'
    · rw [Prod.mk.injEq] at heq
      rcases heq with ⟨rfl, rfl⟩
      rw [extractObj_cons]
      intro x hx
      exact Finset.mem_union_left _ (Finset.mem_union_right _ hx)
    · rw [extractObj_cons]
      intro x hx
      exact Finset.mem_union_right _ (ih hmem' hx)

lemma extractJson_subset_extractArr {x : Json} {xs : List Json} (hmem : x ∈ xs) :
    extractJson x ⊆ extractArr xs := by
  induction xs with
  | nil => simp at hmem
  | cons y rest ih =>
    rcases List.mem_cons.mp hmem with rfl | hmem'
    · rw [show extractArr (x :: rest) = extractJson x ∪ extractArr rest
        from by simp [extractArr]]
      intro z hz
      exact Finset.mem_union_left _ hz
    · rw [show extractArr (y :: rest) = extractJson y ∪ extractArr rest
        from by simp [extractArr]]
      intro z hz
      exact Finset.mem_union_right _ (ih hmem' hz)

/-! ## Unfolding equations for the retry loop at concrete outcomes -/

lemma fetchRetryGo_ok (attempt : Nat → AttemptResult) (budget n : Nat) (r : Response)
    (h : attemptOutcome (attempt n) = Except.ok r) :
    fetchRetryGo attempt budget n = (Except.ok r, 1) := by
  unfold fetchRetryGo
  rw [h]

lemma fetchRetryGo_err_zero (attempt : Nat → AttemptResult) (n : Nat) (e : FetchError)
    (h : attemptOutcome (attempt n) = Except.error e) :
    fetchRetryGo attempt 0 n = (Except.error e, 1) := by
  unfold fetchRetryGo
  rw [h]

lemma fetchRetryGo_error_step (attempt : Nat → AttemptResult) (budget n : Nat)
    (e : FetchError) (he : attemptOutcome (attempt n) = Except.error e) :
    fetchRetryGo attempt (budget + 1) n =
      ((fetchRetryGo attempt budget (n + 1)).1,
       (fetchRetryGo attempt budget (n + 1)).2 + 1) := by
  conv_lhs => unfold fetchRetryGo
  rw [he]
  simp [isRetryableError_true]

/-! ## Claim theorems -/

/-- C9: canonicalizing a URL twice yields the same result as canonicalizing it
once, and two URLs that differ only in their query string canonicalize to the
same value. -/
theorem C9_canonicalization :
    (∀ s : String, canon (canon s) = canon s) ∧
    (∀ p q₁ q₂ : String, '?' ∉ p.data →
      canon (p ++ "?" ++ q₁) = canon (p ++ "?" ++ q₂)) :=
  ⟨canon_idem, canon_query_invariant⟩

/-- Witness for C9 at concrete URLs. -/
theorem C9_witness :
    canon (canon "/course/intro-to-x?utm=1") = canon "/course/intro-to-x?utm=1" ∧
    canon ("/course/a" ++ "?" ++ "p=1") = canon ("/course/a" ++ "?" ++ "p=2") :=
  ⟨C9_canonicalization.1 "/course/intro-to-x?utm=1",
   C9_canonicalization.2 "/course/a" "p=1" "p=2" (by decide)⟩

/-- C2: with M input URLs of which exactly K fail terminally, scraping returns
exactly M − K records, and the outcome of any one URL is independent of the
others: the batch result decomposes around each position, so a per-URL
failure never aborts the batch. -/
theorem C2_partial_failure_isolation (outcome : String → Option CourseRecord)
    (urls : List String) :
    (scrape_courses outcome urls).length =
      urls.length - urls.countP (fun u => (outcome u).isNone) ∧
    ∀ pre (v : String) post, urls = pre ++ v :: post →
      scrape_courses outcome urls =
        scrape_courses outcome pre ++ (outcome v).toList ++
          scrape_courses outcome post := by
  refine ⟨scrape_courses_length outcome urls, ?_⟩
  intro pre v post hsplit
  rw [hsplit]
  exact scrape_courses_isolation outcome pre post v

/-- Witness for C2: three URLs of which the middle one fails. -/
theorem C2_witness :
    (scrape_courses
        (fun u => if u = "b" then none else some ({ url := u } : CourseRecord))
        ["a", "b", "c"]).length =
      (["a", "b", "c"] : List String).length -
        (["a", "b", "c"] : List String).countP
          (fun u => ((fun u => if u = "b" then none
            else some ({ url := u } : CourseRecord)) u).isNone) ∧
    scrape_courses
        (fun u => if u = "b" then none else some ({ url := u } : CourseRecord))
        ["a", "b", "c"] =
      scrape_courses
          (fun u => if u = "b" then none else some ({ url := u } : CourseRecord))
          ["a"] ++
        ((fun u => if u = "b" then none
          else some ({ url := u } : CourseRecord)) "b").toList ++
        scrape_courses
          (fun u => if u = "b" then none else some ({ url := u } : CourseRecord))
          ["c"] := by
  have h := C2_partial_failure_isolation
    (fun u => if u = "b" then none else some ({ url := u } : CourseRecord))
    ["a", "b", "c"]
  exact ⟨h.1, h.2 ["a"] "b" ["c"] rfl⟩

/-- C3 counterexample: the retry decorator hardcodes `stop_after_attempt(4)`,
so even under a configuration with `max_retries = 2` an always-failing fetch
performs 4 attempts, not the configured 2. -/
theorem C3_counterexample :
    (fetchRetry (fun _ => AttemptResult.netErr)).2 = 4 ∧
    ({ max_retries := 2 } : CrawlConfig).max_retries = 2 ∧
    (4 : Nat) ≠ 2 :=
  ⟨rfl, rfl, by decide⟩

/-- C3 (amended): the attempt ceiling is the hardcoded `stop_after_attempt(4)`,
not `config.max_retries`.  With that ceiling: if every attempt raises, exactly
4 attempts are performed and the last error is reraised; if the fetch fails
twice and then succeeds, the success is returned after 3 attempts. -/
theorem C3_retry_ceiling (attempt : Nat → AttemptResult) :
    ((∀ k, 1 ≤ k → k ≤ 4 → ∃ e, attemptOutcome (attempt k) = Except.error e) →
      (fetchRetry attempt).2 = stopAfterAttempt ∧
      ∀ e, attemptOutcome (attempt 4) = Except.error e →
        (fetchRetry attempt).1 = Except.error e) ∧
    (∀ r : Response,
      (∃ e, attemptOutcome (attempt 1) = Except.error e) →
      (∃ e, attemptOutcome (attempt 2) = Except.error e) →
      attemptOutcome (attempt 3) = Except.ok r →
      fetchRetry attempt = (Except.ok r, 3)) := by
  constructor
  · intro hall
    obtain ⟨e1, he1⟩ := hall 1 (by omega) (by omega)
    obtain ⟨e2, he2⟩ := hall 2 (by omega) (by omega)
    obtain ⟨e3, he3⟩ := hall 3 (by omega) (by omega)
    obtain ⟨e4, he4⟩ := hall 4 (by omega) (by omega)
    have k4 : fetchRetryGo attempt 0 4 = (Except.error e4, 1) :=
      fetchRetryGo_err_zero attempt 4 e4 he4
    have k3 : fetchRetryGo attempt 1 3 = (Except.error e4, 2) := by
      rw [fetchRetryGo_error_step attempt 0 3 e3 he3, k4]
    have k2 : fetchRetryGo attempt 2 2 = (Except.error e4, 3) := by
      rw [fetchRetryGo_error_step attempt 1 2 e2 he2, k3]
    have k1 : fetchRetryGo attempt 3 1 = (Except.error e4, 4) := by
      rw [fetchRetryGo_error_step attempt 2 1 e1 he1, k2]
    have hfr : fetchRetry attempt = (Except.error e4, 4) := by
      rw [show fetchRetry attempt = fetchRetryGo attempt 3 1 from rfl, k1]
    constructor
    · rw [hfr]
      rfl
    · intro e he
      rw [he4] at he
      injection he with hee
      subst hee
      rw [hfr]
  · intro r hx1 hx2 ho3
    obtain ⟨e1, he1⟩ := hx1
    obtain ⟨e2, he2⟩ := hx2
    have k3 : fetchRetryGo attempt 1 3 = (Except.ok r, 1) :=
      fetchRetryGo_ok attempt 1 3 r ho3
    have k2 : fetchRetryGo attempt 2 2 = (Except.ok r, 2) := by
      rw [fetchRetryGo_error_step attempt 1 2 e2 he2, k3]
    have k1 : fetchRetryGo attempt 3 1 = (Except.ok r, 3) := by
      rw [fetchRetryGo_error_step attempt 2 1 e1 he1, k2]
    rw [show fetchRetry attempt = fetchRetryGo attempt 3 1 from rfl, k1]

/-- Witness for C3: an always-failing fetch and a fails-twice-then-succeeds
fetch. -/
theorem C3_witness :
    (fetchRetry (fun _ => AttemptResult.netErr)).2 = stopAfterAttempt ∧
    fetchRetry (fun n => if n ≤ 2 then AttemptResult.netErr
        else AttemptResult.resp (Response.mk 200 "ok")) =
      (Except.ok (Response.mk 200 "ok"), 3) := by
  constructor
  · exact ((C3_retry_ceiling (fun _ => AttemptResult.netErr)).1
      (fun k h1 h2 => ⟨FetchError.requestError, rfl⟩)).1
  · exact (C3_retry_ceiling (fun n => if n ≤ 2 then AttemptResult.netErr
        else AttemptResult.resp (Response.mk 200 "ok"))).2
      (Response.mk 200 "ok")
      ⟨FetchError.requestError, rfl⟩ ⟨FetchError.requestError, rfl⟩ rfl

/-- C4 counterexample: an attempt returning a 404 response is retried (a
second attempt happens), although 404 is neither a 429 nor a 5xx status:
`retry_if_exception_type(httpx.HTTPError)` retries every
`raise_for_status` error, not only the transient 5xx/429 class. -/
theorem C4_counterexample :
    (fetchRetry (fun n => if n = 1 then AttemptResult.resp (Response.mk 404 "")
        else AttemptResult.resp (Response.mk 200 "ok"))).2 = 2 ∧
    ¬((404 : Nat) = 429 ∨ (500 ≤ 404 ∧ 404 < 600)) :=
  ⟨rfl, by decide⟩

/-- C4 (amended): a retry happens iff the attempt raised an `httpx.HTTPError`,
i.e. a network-level failure or ANY non-2xx status (not only 5xx/429); the
fetcher never retries after a success, always retries after any error while
budget remains, and a JSON decode failure of a page body causes no refetch
(the API walker breaks immediately). -/
theorem C4_retry_condition :
    (∀ (attempt : Nat → AttemptResult) (r : Response),
      attemptOutcome (attempt 1) = Except.ok r →
        fetchRetry attempt = (Except.ok r, 1)) ∧
    (∀ (attempt : Nat → AttemptResult) (e : FetchError),
      attemptOutcome (attempt 1) = Except.error e →
        2 ≤ (fetchRetry attempt).2) ∧
    (∀ res : AttemptResult,
      (∃ e, attemptOutcome res = Except.error e) ↔
        (res = AttemptResult.netErr ∨
          ∃ r, res = AttemptResult.resp r ∧ isSuccessStatus r.status = false)) ∧
    (∀ (pages : Nat → ApiPage) (fuel p : Nat) (urls : Finset String),
      pages p = ApiPage.decodeFail →
        (apiWalkGo pages (fuel + 1) p urls).2 = 1) := by
  refine ⟨?_, ?_, ?_, ?_⟩
  · intro attempt r h
    exact fetchRetryGo_ok attempt (stopAfterAttempt - 1) 1 r h
  · intro attempt e h
    have hs : fetchRetry attempt =
        ((fetchRetryGo attempt 2 2).1, (fetchRetryGo attempt 2 2).2 + 1) :=
      fetchRetryGo_error_step attempt 2 1 e h
    have hp := fetchRetryGo_count_pos attempt 2 2
    rw [hs]
    show 2 ≤ (fetchRetryGo attempt 2 2).2 + 1
    omega
  · intro res
    cases res with
    | netErr => simp [attemptOutcome]
    | resp r0 =>
      by_cases hsuc : isSuccessStatus r0.status = true
      · constructor
        · rintro ⟨e, he⟩
          rw [show attemptOutcome (AttemptResult.resp r0) = Except.ok r0
            from by simp [attemptOutcome, hsuc]] at he
          exact Except.noConfusion he
        · rintro (h | ⟨r1, hr, hfalse⟩)
          · exact AttemptResult.noConfusion h
          · injection hr with hr0
            rw [← hr0] at hfalse
            rw [hsuc] at hfalse
            exact absurd hfalse (by decide)
      · constructor
        · intro _
          refine Or.inr ⟨r0, rfl, ?_⟩
          cases hb : isSuccessStatus r0.status
          · rfl
          · exact absurd hb hsuc
        · intro _
          exact ⟨FetchError.statusError r0.status, by simp [attemptOutcome, hsuc]⟩
  · intro pages fuel p urls h
    unfold apiWalkGo
    rw [h]

/-- Witness for C4: success at attempt 1, network failure, a 404, and a
decode-failing API page. -/
theorem C4_witness :
    fetchRetry (fun _ => AttemptResult.resp (Response.mk 200 "ok")) =
      (Except.ok (Response.mk 200 "ok"), 1) ∧
    2 ≤ (fetchRetry (fun _ => AttemptResult.netErr)).2 ∧
    (∃ e, attemptOutcome (AttemptResult.resp (Response.mk 404 "")) =
      Except.error e) ∧
    (apiWalkGo (fun _ => ApiPage.decodeFail) (3 + 1) 1 ∅).2 = 1 := by
  refine ⟨C4_retry_condition.1 (fun _ => AttemptResult.resp (Response.mk 200 "ok"))
      (Response.mk 200 "ok") rfl,
    C4_retry_condition.2.1 (fun _ => AttemptResult.netErr)
      FetchError.requestError rfl,
    (C4_retry_condition.2.2.1 (AttemptResult.resp (Response.mk 404 ""))).mpr
      (Or.inr ⟨Response.mk 404 "", rfl, by decide⟩),
    C4_retry_condition.2.2.2 (fun _ => ApiPage.decodeFail) 3 1 ∅ rfl⟩

/-- C5: the DOM query-pagination phase (pages 2, 3, …) terminates: if page K
(K ≥ 2) yields zero links, at most K − 1 pages are fetched; if every page from
K on contributes nothing beyond the start set and pages 2..K−1 (stagnation),
at most K + 4 pages are fetched — page K + small constant in both cases — and
the walk never exceeds `max_listing_pages − 1` query-phase fetches. -/
theorem C5_dom_pagination_termination (pages : Nat → Finset String)
    (maxP K : Nat) (init : Finset String) (hK : 2 ≤ K) :
    (pages K = ∅ → (domPaginate pages maxP init).2 ≤ K - 1) ∧
    ((∀ q, K ≤ q → pages q ⊆ init ∪ (Finset.Ico 2 K).biUnion pages) →
      (domPaginate pages maxP init).2 ≤ K + 4) ∧
    (domPaginate pages maxP init).2 ≤ maxP - 1 := by
  refine ⟨?_, ?_, ?_⟩
  · intro hempty
    have h := domWalkGo_stop_empty pages K hempty (maxP - 1) 2 init hK
    unfold domPaginate
    omega
  · intro H
    have h := domWalkGo_phase pages K init H (maxP - 1) 2 init
      (Nat.le_refl 2) hK (by simp)
    unfold domPaginate
    omega
  · unfold domPaginate
    exact domWalkGo_fuel_bound pages (maxP - 1) 2 init

/-- Witness for C5: a source whose every page is empty, with K = 2. -/
theorem C5_witness :
    (domPaginate (fun _ => (∅ : Finset String)) 10 ∅).2 ≤ 2 - 1 ∧
    (domPaginate (fun _ => (∅ : Finset String)) 10 ∅).2 ≤ 2 + 4 ∧
    (domPaginate (fun _ => (∅ : Finset String)) 10 ∅).2 ≤ 10 - 1 := by
  have h := C5_dom_pagination_termination (fun _ => (∅ : Finset String)) 10 2 ∅
    (by decide)
  exact ⟨h.1 rfl, h.2.1 (fun q hq => Finset.empty_subset _), h.2.2⟩

/-- C6 counterexample: a source whose every page returns the same single link.
Page 2 yields no link not already collected, yet the walk does not stop there:
it performs all 4 fetches, because the code only breaks on an EMPTY extracted
link set, not on "no new links". -/
theorem C6_counterexample :
    (apiWalkEndpoint (fun _ => ApiPage.ok {"u"}) 4).2 = 4 ∧
    ({"u"} : Finset String) ⊆ {"u"} ∧
    ¬((4 : Nat) ≤ 2) :=
  ⟨by decide, by decide, by decide⟩

/-- C6 (amended): the API page iteration stops at the first page that yields
an EMPTY link set (or whose fetch/decode fails), treating it as exhaustion:
with such a page at K it fetches at most K pages; if every page up to the
maximum yields a nonempty link set it fetches exactly `max_listing_pages`
pages, and it never exceeds that maximum. -/
theorem C6_api_pagination_stop (pages : Nat → ApiPage) (maxP K : Nat)
    (hK : 1 ≤ K) :
    ((pages K = ApiPage.fetchFail ∨ pages K = ApiPage.decodeFail ∨
        pages K = ApiPage.ok ∅) →
      (apiWalkEndpoint pages maxP).2 ≤ K) ∧
    ((∀ q, 1 ≤ q → q ≤ maxP → ∃ l, pages q = ApiPage.ok l ∧ l ≠ ∅) →
      (apiWalkEndpoint pages maxP).2 = maxP) ∧
    (apiWalkEndpoint pages maxP).2 ≤ maxP := by
  refine ⟨?_, ?_, ?_⟩
  · intro hstop
    have h := apiWalkGo_stop pages K hstop maxP 1 ∅ hK
    unfold apiWalkEndpoint
    omega
  · intro hfull
    unfold apiWalkEndpoint
    exact apiWalkGo_full pages maxP 1 ∅ (fun q h1 h2 => hfull q h1 (by omega))
  · unfold apiWalkEndpoint
    exact apiWalkGo_fuel_bound pages maxP 1 ∅

/-- Witness for C6: an endpoint exhausting at page 2, and one full to the
maximum. -/
theorem C6_witness :
    (apiWalkEndpoint
        (fun p => if p = 2 then ApiPage.ok ∅ else ApiPage.ok {"u"}) 5).2 ≤ 2 ∧
    (apiWalkEndpoint (fun _ => ApiPage.ok {"u"}) 3).2 = 3 ∧
    (apiWalkEndpoint
        (fun p => if p = 2 then ApiPage.ok ∅ else ApiPage.ok {"u"}) 5).2 ≤ 5 := by
  refine ⟨(C6_api_pagination_stop
      (fun p => if p = 2 then ApiPage.ok ∅ else ApiPage.ok {"u"}) 5 2
      (by decide)).1 (Or.inr (Or.inr rfl)),
    (C6_api_pagination_stop (fun _ => ApiPage.ok {"u"}) 3 1 (by decide)).2.1
      (fun q h1 h2 => ⟨{"u"}, rfl, by decide⟩),
    (C6_api_pagination_stop
      (fun p => if p = 2 then ApiPage.ok ∅ else ApiPage.ok {"u"}) 5 2
      (by decide)).2.2⟩

/-- C8 counterexample: for an endpoint whose query already carries `page=7`,
the loop's page cursor still starts at 1 (the loop is
`range(1, max_listing_pages+1)` and overwrites the existing value), not at
the next unseen value 8. -/
theorem C8_counterexample :
    ensurePageParam [("page", "7")] = [("page", "7")] ∧
    apiPageCursor 3 = [1, 2, 3] ∧
    (apiPageCursor 3).headD 0 = 1 ∧
    (1 : Nat) ≠ 8 :=
  ⟨rfl, rfl, rfl, by decide⟩

/-- C8 (amended): when the query already carries a `page` parameter the
normalization leaves the query unchanged, but the page cursor nevertheless
starts at 1 and increases strictly monotonically up to the maximum. -/
theorem C8_page_cursor (q : List (String × String)) (maxP : Nat)
    (hmax : 1 ≤ maxP) (hq : q.any (fun kv => kv.1 = "page") = true) :
    ensurePageParam q = q ∧
    (apiPageCursor maxP).headD 0 = 1 ∧
    List.Pairwise (· < ·) (apiPageCursor maxP) := by
  refine ⟨?_, ?_, List.pairwise_lt_range' 1 maxP⟩
  · unfold ensurePageParam
    rw [if_pos hq]
  · unfold apiPageCursor
    rcases maxP with _ | m
    · exact absurd hmax (by decide)
    · rfl

/-- Witness for C8: a query carrying `page=7`, maximum 3. -/
theorem C8_witness :
    ensurePageParam [("page", "7")] = [("page", "7")] ∧
    (apiPageCursor 3).headD 0 = 1 ∧
    List.Pairwise (fun a b => a < b) (apiPageCursor 3) := by
  have h := C8_page_cursor [("page", "7")] 3 (by decide) (by decide)
  exact ⟨h.1, h.2.1, h.2.2⟩

/-- C10: when the per-URL scraper preserves the URL it is given, the record
list keeps the relative order of the input URLs (failures dropped in place),
and `run` sorts the reconciled URL set first, so the final record list is
ordered by ascending URL. -/
theorem C10_deterministic_order (outcome : String → Option CourseRecord)
    (urls : Finset String)
    (h : ∀ u r, outcome u = some r → r.url = u) :
    ((runCrawl outcome urls).map (fun r => r.url)).Sorted (· ≤ ·) ∧
    ∀ us : List String,
      ((scrape_courses outcome us).map (fun r => r.url)).Sublist us := by
  constructor
  · unfold runCrawl
    exact List.Pairwise.sublist
      (scrape_courses_map_url_sublist outcome h (urls.sort (· ≤ ·)))
      (Finset.sort_sorted (· ≤ ·) urls)
  · exact scrape_courses_map_url_sublist outcome h

/-- Witness for C10: a three-URL set with one failing URL. -/
theorem C10_witness :
    ((runCrawl
        (fun u => if u = "b" then none else some ({ url := u } : CourseRecord))
        {"b", "a", "c"}).map (fun r => r.url)).Sorted (· ≤ ·) ∧
    ((scrape_courses
        (fun u => if u = "b" then none else some ({ url := u } : CourseRecord))
        ["c", "b", "a"]).map (fun r => r.url)).Sublist ["c", "b", "a"] := by
  have h := C10_deterministic_order
    (fun u => if u = "b" then none else some ({ url := u } : CourseRecord))
    {"b", "a", "c"}
    (fun u r hr => by
      dsimp only at hr
      by_cases hb : u = "b"
      · rw [if_pos hb] at hr
        exact Option.noConfusion hr
      · rw [if_neg hb] at hr
        injection hr with hr0
        rw [← hr0])
  exact ⟨h.1, h.2 ["c", "b", "a"]⟩

/-- C7 counterexample: a string containing `/course/` that sits directly in a
list is NOT collected — the walker only examines strings that are dict
values, so `["/course/abc"]` extracts nothing, refuting "every string value
anywhere in the structure". -/
theorem C7_counterexample :
    strContains "/course/abc" "/course/" = true ∧
    extractJson (Json.arr [Json.str "/course/abc"]) = ∅ ∧
    canon "/course/abc" ∉ extractJson (Json.arr [Json.str "/course/abc"]) := by
  have h2 : extractJson (Json.arr [Json.str "/course/abc"]) = ∅ := by
    simp [extractJson, extractArr]
  refine ⟨by decide, h2, ?_⟩
  rw [h2]
  exact Finset.not_mem_empty _

/-- C7 (amended): for every map entry `(k, v)` anywhere in the nesting of maps
and sequences, the walk collects the canonicalized URL when `v` is a string
containing `/course/`, and the synthesized `/course/{v}` URL when `k` is a
slug-denoting key with string value; only dict-value strings are examined. -/
theorem C7_json_extraction (k : String) (v : Json) (j : Json)
    (h : EntryIn k v j) :
    (∀ s, v = Json.str s → strContains s "/course/" = true →
      canon s ∈ extractJson j) ∧
    (∀ s, v = Json.str s →
      (keyLower k = "slug" ∨ keyLower k = "course_slug") →
      (⟨urljoin baseUrl.data ("/course/" ++ s).data⟩ : String) ∈
        extractJson j) := by
  induction h with
  | here hmem =>
    constructor
    · intro s hv hc
      subst hv
      have h1 : canon s ∈ entryContrib k (Json.str s) := by
        unfold entryContrib
        apply Finset.mem_union_left
        dsimp only
        rw [if_pos hc]
        exact Finset.mem_singleton_self _
      simpa [extractJson] using entryContrib_subset_extractObj hmem h1
    · intro s hv hk
      subst hv
      have h1 : (⟨urljoin baseUrl.data ("/course/" ++ s).data⟩ : String) ∈
          entryContrib k (Json.str s) := by
        unfold entryContrib
        apply Finset.mem_union_right
        dsimp only
        rw [if_pos hk]
        exact Finset.mem_singleton_self _
      simpa [extractJson] using entryContrib_subset_extractObj hmem h1
  | viaObj hmem hsub ih =>
    constructor
    · intro s hv hc
      simpa [extractJson] using extractJson_subset_extractObj hmem (ih.1 s hv hc)
    · intro s hv hk
      simpa [extractJson] using extractJson_subset_extractObj hmem (ih.2 s hv hk)
  | viaArr hmem hsub ih =>
    constructor
    · intro s hv hc
      simpa [extractJson] using extractJson_subset_extractArr hmem (ih.1 s hv hc)
    · intro s hv hk
      simpa [extractJson] using extractJson_subset_extractArr hmem (ih.2 s hv hk)

/-- Witness for C7: a dict value containing `/course/`, and a `slug` entry. -/
theorem C7_witness :
    canon "/course/x" ∈ extractJson (Json.obj [("k", Json.str "/course/x")]) ∧
    (⟨urljoin baseUrl.data ("/course/" ++ "abc").data⟩ : String) ∈
      extractJson (Json.obj [("slug", Json.str "abc")]) := by
  constructor
  · exact (C7_json_extraction "k" (Json.str "/course/x")
      (Json.obj [("k", Json.str "/course/x")])
      (EntryIn.here (List.mem_singleton.mpr rfl))).1 "/course/x" rfl (by decide)
  · exact (C7_json_extraction "slug" (Json.str "abc")
      (Json.obj [("slug", Json.str "abc")])
      (EntryIn.here (List.mem_singleton.mpr rfl))).2 "abc" rfl
      (Or.inl (by decide))

/-- C1 counterexample: with DOM hrefs `["/course/a", "/x?next=/course/y"]` and
an API payload `{"slug": "a?x"}`, the reconciled set contains BOTH
`…/course/a` and `…/course/a?x` — two distinct, canonically-equal entries,
because the slug-synthesis path skips the query strip — and it contains
`…/x`, which has no `/course/` segment, because the `a[href*='/course/']`
selector matches a `/course/` occurring inside the query string. -/
theorem C1_counterexample :
    ("https://www.classcentral.com/course/a" : String) ∈
      collect_course_urls
        (course_links_from_html ["/course/a", "/x?next=/course/y"])
        (extractJson (Json.obj [("slug", Json.str "a?x")])) ∧
    ("https://www.classcentral.com/course/a?x" : String) ∈
      collect_course_urls
        (course_links_from_html ["/course/a", "/x?next=/course/y"])
        (extractJson (Json.obj [("slug", Json.str "a?x")])) ∧
    ("https://www.classcentral.com/course/a" : String) ≠
      "https://www.classcentral.com/course/a?x" ∧
    canon "https://www.classcentral.com/course/a" =
      canon "https://www.classcentral.com/course/a?x" ∧
    ("https://www.classcentral.com/x" : String) ∈
      collect_course_urls
        (course_links_from_html ["/course/a", "/x?next=/course/y"])
        (extractJson (Json.obj [("slug", Json.str "a?x")])) ∧
    strContains "https://www.classcentral.com/x" "/course/" = false := by
  have hstr : extractJson (Json.str "a?x") = ∅ := by simp [extractJson]
  have hnil : extractObj ([] : List (String × Json)) = ∅ := by simp [extractObj]
  have hapi : extractJson (Json.obj [("slug", Json.str "a?x")]) =
      (entryContrib "slug" (Json.str "a?x") ∪ ∅) ∪ ∅ := by
    rw [show extractJson (Json.obj [("slug", Json.str "a?x")]) =
        extractObj [("slug", Json.str "a?x")] from by simp [extractJson],
      extractObj_cons, hstr, hnil]
  rw [hapi]
  decide

/-- C1 (amended): the reconciled set is exactly the union of the DOM and API
sets — every URL from either input appears, nothing else does, and as a set
it holds no exact duplicates — and every DOM-extracted URL is canonical
(fixed by `canon`).  Canonically-equal duplicates and non-`/course/` URLs are
NOT excluded (see the counterexample). -/
theorem C1_reconciled_properties (hrefs : List String) (api : Finset String) :
    (∀ u, u ∈ collect_course_urls (course_links_from_html hrefs) api ↔
      u ∈ course_links_from_html hrefs ∨ u ∈ api) ∧
    (collect_course_urls (course_links_from_html hrefs) api).val.Nodup ∧
    (∀ u ∈ course_links_from_html hrefs, canon u = u) :=
  ⟨fun u => Finset.mem_union, Finset.nodup _, course_links_canonical hrefs⟩

/-- Witness for C1 at a concrete DOM list and API set. -/
theorem C1_witness :
    (("https://www.classcentral.com/course/a" : String) ∈
        collect_course_urls (course_links_from_html ["/course/a"]) {"z"} ↔
      ("https://www.classcentral.com/course/a" : String) ∈
        course_links_from_html ["/course/a"] ∨
      ("https://www.classcentral.com/course/a" : String) ∈
        ({"z"} : Finset String)) ∧
    (collect_course_urls (course_links_from_html ["/course/a"]) {"z"}).val.Nodup ∧
    canon "https://www.classcentral.com/course/a" =
      "https://www.classcentral.com/course/a" := by
  have h := C1_reconciled_properties ["/course/a"] {"z"}
  exact ⟨h.1 "https://www.classcentral.com/course/a", h.2.1,
    h.2.2 "https://www.classcentral.com/course/a" (by decide)⟩

end Crawler
